import Mathlib

/-!
Verification of the retrodep revision-identification engine.

This file gives a shallow embedding, in Lean 4, of the core data model and
algorithms of the retrodep repository (packages `retrodep` and
`backvendor`): the `FileHashes` comparison operations, the
semantic-version parser used by the tag chooser and the pseudo-version
builder, the candidate matcher `matchFromRefs`, the reference builder
`DescribeProject`, the git `FileHashesFromRef` parser, the import-comment
stripper, and the `NewFileHashes` tree walk.  Each definition is
translated from the Go source; the theorems in the second half of the
file settle the specification claims.
-/

namespace Retrodep

/-- Sentinel and fatal errors used by the engine: `ErrorVersionNotFound`,
`ErrorInvalidRef`, `ErrorUnknownVCS` and `ErrorNoFiles` from the source,
plus `goPanic` marking a Go runtime panic (out-of-range slice or index)
and `ioFailure` for propagated subprocess or filesystem errors. -/
inductive Err where
  | versionNotFound
  | invalidRef
  | unknownVCS
  | noFiles
  | goPanic
  | indexOutOfRange
  | ioFailure (msg : String)
  deriving DecidableEq, Repr

deriving instance DecidableEq for Except

/-- Record of the hash of a file, an opaque string
(src/unnamed/part_003, `type FileHash string`). -/
abbrev FileHash := String

/-- Map of relative filenames to their hashes (src/unnamed/part_003,
`type FileHashes struct`).  The Go map is modelled as an association
list; the Go map invariant (no duplicate keys) is stated as a hypothesis
where a theorem needs it.  The `Hasher` carried by the Go struct is
abstracted away since the operations modelled here never invoke it
directly. -/
structure FileHashes where
  hashes : List (String × FileHash)
  deriving DecidableEq, Repr

/-- Go map lookup `s.hashes[path]` on the association-list model. -/
def FileHashes.lookup (s : FileHashes) (path : String) : Option FileHash :=
  (s.hashes.find? (fun e => e.1 = path)).map Prod.snd

/-- Go map insertion `fh[k] = v` on the association-list model: replace
the binding if the key is present, otherwise append. -/
def insertHash (l : List (String × FileHash)) (k : String) (v : FileHash) :
    List (String × FileHash) :=
  match l with
  | [] => [(k, v)]
  | e :: rest => if e.1 = k then (k, v) :: rest else e :: insertHash rest k v

/-- Loop body of `FileHashes.Mismatches` (src/unnamed/part_003 lines
174-194): walk the entries of `h`, appending each path that is absent
from `s` or bound to a different hash; with `failFast` return as soon as
the accumulated slice is non-nil. -/
def mismatchesLoop (s : FileHashes) (failFast : Bool) :
    List (String × FileHash) → List String → List String
  | [], acc => acc
  | (path, fileHash) :: rest, acc =>
    let acc' :=
      match s.lookup path with
      | none => acc ++ [path]
      | some sh => if fileHash ≠ sh then acc ++ [path] else acc
    if failFast ∧ acc' ≠ [] then acc' else mismatchesLoop s failFast rest acc'

/-- Method `Mismatches`: the filenames from `h` whose hashes mismatch
those in `s` (src/unnamed/part_003). -/
def FileHashes.Mismatches (h s : FileHashes) (failFast : Bool) : List String :=
  mismatchesLoop s failFast h.hashes []

/-- Method `IsSubsetOf`: true if the file hashes of `h` are a subset of
those of `s`, that is `h.Mismatches(s, true) == nil`
(src/unnamed/part_003). -/
def FileHashes.IsSubsetOf (h s : FileHashes) : Bool :=
  h.Mismatches s true = []

/-!
Semantic versions.

The source relies on the vendored `github.com/Masterminds/semver` v1
library: `semver.NewVersion` matches an anchored regular expression
(optional `v`, a numeric major component, optional dotted numeric minor
and patch components, an optional dash-introduced prerelease of
dot-separated `[0-9A-Za-z-]+` components, an optional plus-introduced
metadata of the same shape), missing minor/patch components defaulting
to zero, and the numeric components read with 64-bit `strconv.ParseInt`
(overflow makes the parse fail).  Because the character classes of
adjacent regex pieces are disjoint, the regex is equivalent to the
committed maximal-munch parser below.
-/

/-- Digit character class `[0-9]`. -/
def isDigitChar (c : Char) : Bool := '0' ≤ c && c ≤ '9'

/-- Prerelease and metadata identifier character class `[0-9A-Za-z-]`. -/
def isIdentChar (c : Char) : Bool :=
  isDigitChar c || ('a' ≤ c && c ≤ 'z') || ('A' ≤ c && c ≤ 'Z') || c = '-'

/-- Numeric value of a digit string. -/
def digitsToNat (ds : List Char) : Nat :=
  ds.foldl (fun n c => 10 * n + (c.toNat - '0'.toNat)) 0

/-- Split of a character list at every occurrence of `sep`. -/
def splitOnChar (sep : Char) : List Char → List (List Char)
  | [] => [[]]
  | c :: cs =>
    if c = sep then [] :: splitOnChar sep cs
    else
      match splitOnChar sep cs with
      | [] => [[c]]
      | g :: gs => (c :: g) :: gs

/-- A parsed semantic version (`semver.Version`): numeric components plus
prerelease and build-metadata strings. -/
structure Semver where
  major : Nat
  minor : Nat
  patch : Nat
  pre : String
  metadata : String
  deriving DecidableEq, Repr

/-- Parse of `[0-9]+` with the 64-bit `ParseInt` bound. -/
def parseNum (cs : List Char) : Option (Nat × List Char) :=
  let ds := cs.takeWhile isDigitChar
  if ds = [] then none
  else if digitsToNat ds ≤ 9223372036854775807 then
    some (digitsToNat ds, cs.drop ds.length)
  else none

/-- Parse of the optional dotted numeric group; an absent group yields the
default component value 0.  A leading dot commits to the group: nothing
after the version core can consume a dot, so the regex fails exactly when
the committed parse fails. -/
def parseOptDotNum (cs : List Char) : Option (Nat × List Char) :=
  match cs with
  | '.' :: r => parseNum r
  | _ => some (0, cs)

/-- Parse of dot-separated nonempty identifier components, by maximal
munch over the combined class followed by a check that no component is
empty. -/
def parseIdents (cs : List Char) : Option (List Char × List Char) :=
  let ps := cs.takeWhile (fun c => isIdentChar c || c = '.')
  if ps = [] then none
  else if (splitOnChar '.' ps).all (fun comp => comp ≠ []) then
    some (ps, cs.drop ps.length)
  else none

/-- Parse of the optional dash-introduced prerelease group. -/
def parseOptPre (cs : List Char) : Option (String × List Char) :=
  match cs with
  | '-' :: r => (parseIdents r).map (fun pr => (String.mk pr.1, pr.2))
  | _ => some ("", cs)

/-- Parse of the optional plus-introduced metadata group. -/
def parseOptMeta (cs : List Char) : Option (String × List Char) :=
  match cs with
  | '+' :: r => (parseIdents r).map (fun pr => (String.mk pr.1, pr.2))
  | _ => some ("", cs)

/-- Model of `semver.NewVersion`: parse a tag as a semantic version, or
fail (`ErrInvalidSemVer` or `ParseInt` overflow, both reported as an
error to the callers in this repository). -/
def semverNewVersion (s : String) : Option Semver := do
  let cs := match s.data with
    | 'v' :: rest => rest
    | cs => cs
  let (major, r1) ← parseNum cs
  let (minor, r2) ← parseOptDotNum r1
  let (patch, r3) ← parseOptDotNum r2
  let (pre, r4) ← parseOptPre r3
  let (metadata, r5) ← parseOptMeta r4
  if r5 = [] then
    some { major, minor, patch, pre, metadata }
  else
    none

/-- Accessor `Version.Prerelease()`. -/
def Semver.prerelease (v : Semver) : String := v.pre

/-- Model of `Version.IncPatch()` (Masterminds semver v1): drop the
metadata and, when there is no prerelease, increment the patch component;
a prerelease version merely has its prerelease and metadata dropped. -/
def Semver.incPatch (v : Semver) : Semver :=
  if v.pre ≠ "" then { v with pre := "", metadata := "" }
  else { v with pre := "", metadata := "", patch := v.patch + 1 }

/-- Model of `Version.String()`: `major.minor.patch`, then the prerelease
after a dash when it is non-empty, then the metadata after a plus when it
is non-empty. -/
def Semver.str (v : Semver) : String :=
  toString v.major ++ "." ++ toString v.minor ++ "." ++ toString v.patch
    ++ (if v.pre ≠ "" then "-" ++ v.pre else "")
    ++ (if v.metadata ≠ "" then "+" ++ v.metadata else "")

/-- Predicate tested by the `chooseBestTag` loop on each `tags[i]`:
whether the tag parses as a semantic version with empty prerelease. -/
def isReleaseSemverTag (tag : String) : Bool :=
  match semverNewVersion tag with
  | some v => v.prerelease = ""
  | none => false

/-- Model of `chooseBestTag` (src/retrodep/vendored.go lines 255-271):
scan the list from the last index down to index 0 and return the first
tag that parses as a non-prerelease semver; if none does, return the last
tag.  The downward `for` loop is rendered as `find?` on the reversed
list; Go's `tags[len(tags)-1]` panics on an empty list, modelled by
`getLast?` returning `none`. -/
def chooseBestTag (tags : List String) : Option String :=
  match tags.reverse.find? isReleaseSemverTag with
  | some tag => some tag
  | none => tags.getLast?

/-!
Pseudo-version builder (src/backvendor/workingtree.go lines 772-810).

`PseudoVersion` consumes the reachable-tag and commit-timestamp
providers, the narrow capability set the retrodep package names
`Describable` (the `backvendor` variant reads them from the working tree
itself; its body is otherwise identical, and its `vcsGit` guard concerns
driver dispatch, not the version computation).  A Go `time.Time` parsed
from the RFC 3339 output of `git show --pretty=format:%cI` carries the
commit's wall-clock fields together with its UTC offset;
`t.Format("20060102150405")` renders the wall-clock fields in the time's
own location.
-/

/-- A Go `time.Time` as produced by `time.Parse(time.RFC3339, ...)`:
wall-clock fields plus the UTC offset (in minutes) of the fixed zone the
parse attaches. -/
structure GoTime where
  year : Nat
  month : Nat
  day : Nat
  hour : Nat
  minute : Nat
  second : Nat
  offsetMin : Int
  deriving DecidableEq, Repr

/-- Two-digit zero padding, as the minute-style layout components
format. -/
def pad2 (n : Nat) : String := if n < 10 then "0" ++ toString n else toString n

/-- Four-digit zero padding, as the year layout component formats. -/
def pad4 (n : Nat) : String :=
  if n < 10 then "000" ++ toString n
  else if n < 100 then "00" ++ toString n
  else if n < 1000 then "0" ++ toString n
  else toString n

/-- Go `t.Format("20060102150405")`: the wall-clock fields rendered in
the time's own location. -/
def goFormatTimestamp (t : GoTime) : String :=
  pad4 t.year ++ pad2 t.month ++ pad2 t.day ++
    pad2 t.hour ++ pad2 t.minute ++ pad2 t.second

/-- Days from the civil epoch 1970-01-01 in the proleptic Gregorian
calendar (for years ≥ 1), following the standard days-from-civil
algorithm. -/
def daysFromCivil (y m d : Nat) : Int :=
  let y' := if m ≤ 2 then y - 1 else y
  let era := y' / 400
  let yoe := y' % 400
  let mp := (m + 9) % 12
  let doy := (153 * mp + 2) / 5 + d - 1
  let doe := yoe * 365 + yoe / 4 - yoe / 100 + doy
  (era * 146097 + doe : Int) - 719468

/-- Absolute instant a `GoTime` denotes, as seconds since the Unix epoch:
the wall-clock reading shifted back by the UTC offset.  Two `GoTime`s
denote the same instant exactly when these values agree. -/
def instantSeconds (t : GoTime) : Int :=
  ((daysFromCivil t.year t.month t.day) * 1440
      + (t.hour : Int) * 60 + (t.minute : Int) - t.offsetMin) * 60
    + (t.second : Int)

/-- Capability set used by `PseudoVersion` (named `Describable` in the
retrodep package): the reachable-tag and commit-timestamp providers of a
working tree. -/
structure Describable where
  reachableTag : String → Except Err String
  timeFromRevision : String → Except Err GoTime

/-- Version-and-suffix selection of `PseudoVersion`
(src/backvendor/workingtree.go lines 777-800): the reachable-tag case
analysis choosing the base version string and the suffix. -/
def pseudoVersionBase (d : Describable) (rev : String) :
    Except Err (String × String) :=
  match d.reachableTag rev with
  | .error .versionNotFound => .ok ("v0.0.0", "-0.")
  | .error e => .error e
  | .ok reachable =>
    match semverNewVersion reachable with
    | none => .ok (reachable, "-1.")
    | some ver =>
      if ver.prerelease = "" then .ok ("v" ++ ver.incPatch.str, "-0.")
      else .ok ("v" ++ ver.str, ".0.")

/-- Model of `PseudoVersion` (src/backvendor/workingtree.go lines
772-810): select the base version and suffix from the reachable tag,
then append the formatted commit timestamp and the first 12 bytes of the
revision.  Go's `rev[:12]` panics when the revision is shorter than 12
bytes, modelled by `Err.goPanic`. -/
def pseudoVersion (d : Describable) (rev : String) : Except Err String :=
  match pseudoVersionBase d rev with
  | .error e => .error e
  | .ok (version, suffix) =>
    match d.timeFromRevision rev with
    | .error e => .error e
    | .ok t =>
      if 12 ≤ rev.length then
        .ok (version ++ suffix ++ goFormatTimestamp t ++ "-"
              ++ String.mk (rev.data.take 12))
      else .error .goPanic

/-- Revision used by the specification's pseudo-version example. -/
def exampleRev : String := "d4c3dbfa77a74ae238e401d5d2197b45f30d8513"

/-- Describable for scenario S2 of the specification: reachable tag
`v1.2.0` at 2006-01-02 15:04:05 UTC. -/
def exampleDescribable : Describable :=
  { reachableTag := fun _ => .ok "v1.2.0",
    timeFromRevision := fun _ => .ok ⟨2006, 1, 2, 15, 4, 5, 0⟩ }

/-- Wall-clock reading 2006-01-02 15:04:05 at UTC offset +01:00 (i.e. the
instant 2006-01-02 14:04:05 UTC). -/
def cexTimePlus1 : GoTime := ⟨2006, 1, 2, 15, 4, 5, 60⟩

/-- Instant 2006-01-02 14:04:05 UTC, written at offset zero. -/
def cexTimeUTC : GoTime := ⟨2006, 1, 2, 14, 4, 5, 0⟩

/-- Describable whose commit timestamp reads 2006-01-02T15:04:05+01:00. -/
def cexDescribablePlus1 : Describable :=
  { reachableTag := fun _ => .ok "v1.2.0",
    timeFromRevision := fun _ => .ok cexTimePlus1 }

/-- Describable whose commit timestamp reads 2006-01-02T14:04:05Z, the
same instant as `cexDescribablePlus1`'s. -/
def cexDescribableUTC : Describable :=
  { reachableTag := fun _ => .ok "v1.2.0",
    timeFromRevision := fun _ => .ok cexTimeUTC }

/-!
StripImportComment (src/backvendor/workingtree.go lines 851-916).

`StripImportComment` walks a file line by line (via
`bufio.Reader.ReadBytes` with the newline delimiter) and rewrites every
line matched by `importCommentRE`: an anchored `package` keyword,
whitespace, an identifier (the first capture group), whitespace, then
either a line comment holding `import` and a quoted import path and
running to end of line, or a block comment holding the same followed by
arbitrary trailing content (the final capture group).  The rewrite is
the first capture group followed by the final capture group.  The
adjacent pieces of the pattern draw from disjoint character classes, so
the regex is equivalent to the committed parser below.  Go's regexp
whitespace class is the Perl one (tab, newline, form feed, carriage
return, space) and its word class is `[0-9A-Za-z_]`.
-/

/-- Model of Go `strings.HasSuffix` on the character lists underlying the
strings. -/
def goHasSuffix (s suf : String) : Bool := suf.data.isSuffixOf s.data

/-- Go regexp whitespace class: tab, newline, form feed, carriage
return, space. -/
def isGoSpace (c : Char) : Bool :=
  c = ' ' || c = '\t' || c = '\n' || c.toNat = 12 || c = '\r'

/-- Go regexp word class `[0-9A-Za-z_]`. -/
def isWordChar (c : Char) : Bool :=
  isDigitChar c || ('a' ≤ c && c ≤ 'z') || ('A' ≤ c && c ≤ 'Z') || c = '_'

/-- Backquote character. -/
def backquoteChar : Char := Char.ofNat 96

/-- Consumption of an exact literal from the input. -/
def stripLit : List Char → List Char → Option (List Char)
  | [], cs => some cs
  | _ :: _, [] => none
  | p :: ps, c :: cs => if c = p then stripLit ps cs else none

/-- Parse of the source's `importRE` component: optional whitespace, the
`import` keyword, whitespace, a double- or backquoted nonempty import
path, optional whitespace; returns the remaining input. -/
def parseImportSpec (cs : List Char) : Option (List Char) := do
  let cs := cs.dropWhile isGoSpace
  let cs ← stripLit "import".data cs
  let sp := cs.takeWhile isGoSpace
  if sp = [] then none else
  let cs := cs.drop sp.length
  match cs with
  | q :: r =>
    if q = '"' ∨ q = backquoteChar then
      let body := r.takeWhile (fun c => ¬ c = q)
      if body = [] then none
      else match r.drop body.length with
        | q' :: r2 => if q' = q then some (r2.dropWhile isGoSpace) else none
        | [] => none
    else none
  | [] => none

/-- Model of `removeImportComment` (src/backvendor/workingtree.go lines
858-866): when `importCommentRE` matches the line, return the package
statement (the first capture group) followed by the content after the
closing block comment (the final capture group); otherwise Go returns
`nil`, modelled as `none`. -/
def removeImportComment (line : List Char) : Option (List Char) := do
  let cs ← stripLit "package".data line
  let sp1 := cs.takeWhile isGoSpace
  if sp1 = [] then none else
  let cs := cs.drop sp1.length
  let ident := cs.takeWhile isWordChar
  if ident = [] then none else
  let cs := cs.drop ident.length
  let group1 := "package".data ++ sp1 ++ ident
  let sp2 := cs.takeWhile isGoSpace
  if sp2 = [] then none else
  let cs := cs.drop sp2.length
  match cs with
  | '/' :: '/' :: r =>
    match parseImportSpec r with
    | some rest => if rest = [] then some group1 else none
    | none => none
  | '/' :: '*' :: r =>
    match parseImportSpec r with
    | some rest =>
      match rest with
      | '*' :: '/' :: r2 => some (group1 ++ r2)
      | _ => none
    | none => none
  | _ => none

/-- Chunks that `bufio.Reader.ReadBytes` (with the newline delimiter)
yields from a byte stream: each chunk ends with the newline, except a
final unterminated chunk; the empty tail after a final newline yields no
chunk. -/
def readChunksAux : List Char → List Char → List (List Char)
  | acc, [] => if acc = [] then [] else [acc]
  | acc, c :: cs =>
    if c = '\n' then (acc ++ ['\n']) :: readChunksAux [] cs
    else readChunksAux (acc ++ [c]) cs

/-- All chunks of a byte stream. -/
def readChunks (cs : List Char) : List (List Char) := readChunksAux [] cs

/-- Model of `bytes.TrimRight(line, "\n")`: remove every trailing
newline. -/
def trimTrailingNewlines (l : List Char) : List Char :=
  (l.reverse.dropWhile (fun c => c = '\n')).reverse

/-- Loop body of `StripImportComment` for one chunk: the written bytes
(the trimmed or rewritten line plus a terminating newline) and this
chunk's contribution to `changed` (the chunk had no trailing newline, or
an import comment was removed). -/
def stripChunk (line : List Char) : List Char × Bool :=
  let nonl := trimTrailingNewlines line
  let noNewline := nonl.length = line.length
  match removeImportComment nonl with
  | some repl => (repl ++ ['\n'], true)
  | none => (nonl ++ ['\n'], noNewline)

/-- Main loop of `StripImportComment`: process every chunk, concatenating
the written bytes and or-ing the `changed` flags. -/
def stripLoop : List (List Char) → List Char × Bool
  | [] => ([], false)
  | l :: ls =>
    let p := stripChunk l
    let q := stripLoop ls
    (p.1 ++ q.1, p.2 || q.2)

/-- Model of `StripImportComment` (src/backvendor/workingtree.go lines
874-916) applied to the file content at `path`: paths without the `.go`
suffix yield `changed = false` with nothing written; for `.go` files
every chunk is processed by the loop.  The result is the bytes written to
the sink and the `changed` flag. -/
def stripImportComment (path : String) (content : List Char) :
    List Char × Bool :=
  if goHasSuffix path ".go" then stripLoop (readChunks content)
  else ([], false)

/-- Description, used by the claim, of one written line: trailing
newlines removed, the import-comment rewrite applied when the line
matches, and a terminating newline appended. -/
def claimLineOutput (l : List Char) : List Char :=
  (match removeImportComment (trimTrailingNewlines l) with
   | some repl => repl
   | none => trimTrailingNewlines l) ++ ['\n']

/-- Whether a line is rewritten by the import-comment pattern. -/
def lineRewritten (l : List Char) : Bool :=
  (removeImportComment (trimTrailingNewlines l)).isSome

/-- Whether a chunk lacks a trailing newline (the condition under which
the loop body records `changed` without a rewrite). -/
def chunkNoNewline (l : List Char) : Bool :=
  (trimTrailingNewlines l).length = l.length

/-- Whether a byte stream is nonempty and does not end with a newline
(the claim's "the file's final line lacked a trailing newline"). -/
def noTrailingNewline (cs : List Char) : Bool :=
  match cs.getLast? with
  | some c => ¬ c = '\n'
  | none => false

/-!
Path helpers: models of the Go standard-library path functions the
engine applies to cleaned, relative, slash-separated paths (the only
form the engine passes them).
-/

/-- Model of Go `strings.HasPrefix` on the character lists underlying
the strings. -/
def goStartsWith (s p : String) : Bool := p.data.isPrefixOf s.data

/-- Lowercasing of one character, restricted to ASCII (the git messages
the engine matches are ASCII). -/
def asciiLower (c : Char) : Char :=
  if 'A' ≤ c ∧ c ≤ 'Z' then Char.ofNat (c.toNat + 32) else c

/-- Model of Go `strings.ToLower` on the character list underlying the
string, restricted to ASCII. -/
def goToLower (s : String) : String := ⟨s.data.map asciiLower⟩

/-- Split of a slash-separated path into segments, Go
`strings.Split(s, "/")` (an empty string yields one empty segment). -/
def splitSlash (s : String) : List String :=
  (splitOnChar '/' s.data).map String.mk

/-- Joining of path segments with slashes, the inverse of
`splitSlash`. -/
def joinSegs : List String → String
  | [] => ""
  | s :: rest =>
    match rest with
    | [] => s
    | _ :: _ => s ++ "/" ++ joinSegs rest

/-- Joining of character-list groups with a separator character. -/
def joinChar (sep : Char) : List (List Char) → List Char
  | [] => []
  | g :: gs =>
    match gs with
    | [] => g
    | _ :: _ => g ++ sep :: joinChar sep gs

/-- Drop of the common leading segments of two segment lists. -/
def dropCommonSegs : List String → List String → List String × List String
  | b :: bs, t :: ts =>
    if b = t then dropCommonSegs bs ts else (b :: bs, t :: ts)
  | bs, ts => (bs, ts)

/-- Model of Go `filepath.Rel(base, targ)` restricted to cleaned,
relative, slash-separated paths (the form the engine passes: the walk
root and paths beneath it, `subPath` and the paths `git ls-tree -r`
prints): equal paths yield ".", otherwise the common leading segments
are dropped, the remaining base segments (which must not contain "..")
each contribute a ".." segment, and the remaining target segments
follow. -/
def goRel (base targ : String) : Except Err String :=
  if targ = base then .ok "."
  else
    let bsegs := if base = "." then [] else splitSlash base
    let tsegs := if targ = "." then [] else splitSlash targ
    let p := dropCommonSegs bsegs tsegs
    if p.1.contains ".." then .error (.ioFailure "Rel: cannot make relative")
    else .ok (joinSegs (p.1.map (fun _ => "..") ++ p.2))

/-- Model of Go `filepath.Join` on cleaned slash paths: an empty first
component yields the second unchanged. -/
def goJoin (a b : String) : String := if a = "" then b else a ++ "/" ++ b

/-!
Git FileHashesFromRef (src/retrodep/git.go lines 138-186).

The subprocess boundary is abstracted: a `RunResult` is either the
scanner lines of the command's standard output (exit status zero) or the
combined output buffer on failure.  Everything after that boundary — the
error-message mapping and the per-line parsing — is translated from the
source.
-/

/-- Result of running a git subprocess: the scanner lines of its output
on success, or the combined output buffer on failure. -/
inductive RunResult where
  | ok (lines : List String)
  | err (output : String)
  deriving DecidableEq, Repr

/-- Split of a line at its first TAB, Go `strings.SplitN(line, "\t", 2)`:
`none` when the line has no TAB (the source reports "expected TAB"). -/
def splitFirstTab (line : String) : Option (String × String) :=
  let l1 := line.data.takeWhile (fun c => ¬ c = '\t')
  match line.data.drop l1.length with
  | '\t' :: rest => some (String.mk l1, String.mk rest)
  | _ => none

/-- Accumulator loop of Go `strings.Fields`: split at maximal runs of
whitespace, dropping empty fields. -/
def fieldsAux : List Char → List Char → List (List Char)
  | acc, [] => if acc = [] then [] else [acc]
  | acc, c :: cs =>
    if isGoSpace c then
      if acc = [] then fieldsAux [] cs else acc :: fieldsAux [] cs
    else fieldsAux (acc ++ [c]) cs

/-- Model of Go `strings.Fields`. -/
def goFields (s : String) : List String :=
  (fieldsAux [] s.data).map String.mk

/-- Parsing of one `git ls-tree -r` output line (src/retrodep/git.go
lines 160-182): split at the first TAB; the right part, re-based with
`filepath.Rel` when `subPath` is non-empty, is the filename; the left
part must have exactly three space-separated fields, of which the third
is the object hash. -/
def gitLsTreeLine (subPath : String) (line : String) :
    Except Err (String × FileHash) :=
  match splitFirstTab line with
  | none => .error (.ioFailure ("expected TAB: " ++ line))
  | some (meta, name) =>
    let fileRes : Except Err String :=
      if subPath = "" then .ok name else goRel subPath name
    match fileRes with
    | .error e => .error e
    | .ok filename =>
      match goFields meta with
      | [_, _, obj] => .ok (filename, obj)
      | _ => .error (.ioFailure ("expected 3 fields: " ++ meta))

/-- Scanner loop of `FileHashesFromRef`: parse each line and insert the
resulting binding into the table. -/
def gitLsTreeLoop (subPath : String) :
    List String → List (String × FileHash) → Except Err FileHashes
  | [], acc => .ok ⟨acc⟩
  | line :: rest, acc =>
    match gitLsTreeLine subPath line with
    | .error e => .error e
    | .ok (filename, h) => gitLsTreeLoop subPath rest (insertHash acc filename h)

/-- Model of `FileHashesFromRef` (src/retrodep/git.go lines 138-186)
applied to the result of running `git ls-tree -r ref [subPath]`: on
failure the lowercased output is matched by prefix — "fatal: not a valid
object name " and "fatal: not a tree object" map to `ErrorInvalidRef`,
anything else propagates; on success every line is parsed into the
table. -/
def gitFileHashesFromRef (run : RunResult) (subPath : String) :
    Except Err FileHashes :=
  match run with
  | .err output =>
    let lower := goToLower output
    if goStartsWith lower "fatal: not a valid object name " then
      .error .invalidRef
    else if goStartsWith lower "fatal: not a tree object" then
      .error .invalidRef
    else .error (.ioFailure output)
  | .ok lines => gitLsTreeLoop subPath lines []

/-!
Matcher and reference builder (src/retrodep/vendored.go lines 119-229
and 277-408).

The working tree is abstracted as a record of the VCS operations the
matcher consumes, each a function of its inputs (a fixed upstream
repository state).  `stripAndHash` combines, for one path at a
checked-out ref, the `StripImportComment`/temporary-file/`Hasher.Hash`
sequence performed by `updateHashesAfterStrip`: `none` models an
unchanged file, `some h` the re-computed hash of the stripped content.
-/

/-- Project description consumed by `DescribeProject`: the repository-root
Go import path, repository URL, sub-path within the repository, and the
optional pinned version from dependency management (the retrodep
`RepoPath` fields the function reads). -/
structure RepoPath where
  root : String
  repo : String
  subPath : String
  version : String
  deriving DecidableEq, Repr

/-- Origin of a vendored project (src/retrodep/vendored.go lines
232-251); a field Go leaves unset is the empty string. -/
structure Reference where
  Pkg : String
  Repo : String
  Tag : String
  Rev : String
  Ver : String
  deriving DecidableEq, Repr

/-- Abstract working tree as consumed by `DescribeProject` and
`matchFromRefs`. -/
structure WorkingTree where
  versionTags : Except Err (List String)
  revisions : Except Err (List String)
  revisionFromTag : String → Except Err String
  fileHashesFromRef : String → String → Except Err FileHashes
  revSync : String → Except Err Unit
  stripAndHash : String → String → Except Err (Option FileHash)
  reachableTag : String → Except Err String
  timeFromRevision : String → Except Err GoTime

/-- Describable view of a working tree, as passed to `PseudoVersion`. -/
def WorkingTree.describable (wt : WorkingTree) : Describable :=
  ⟨wt.reachableTag, wt.timeFromRevision⟩

/-- Loop of `updateHashesAfterStrip` (src/retrodep/vendored.go lines
126-165): for each path, strip the import comment in the checked-out
copy and re-hash it; an unchanged file leaves the table and flag
alone. -/
def updateLoop (wt : WorkingTree) (ref : String) :
    List String → FileHashes → Bool → Except Err (FileHashes × Bool)
  | [], th, anyChanged => .ok (th, anyChanged)
  | path :: rest, th, anyChanged =>
    match wt.stripAndHash ref path with
    | .error e => .error e
    | .ok none => updateLoop wt ref rest th anyChanged
    | .ok (some h) =>
      updateLoop wt ref rest ⟨insertHash th.hashes path h⟩ true

/-- Model of `updateHashesAfterStrip` (src/retrodep/vendored.go lines
119-168): sync the tree to `ref`, then re-hash each path after import
comment stripping, reporting whether any hash changed. -/
def updateHashesAfterStrip (th : FileHashes) (wt : WorkingTree)
    (ref : String) (paths : List String) : Except Err (FileHashes × Bool) :=
  match wt.revSync ref with
  | .error e => .error e
  | .ok _ => updateLoop wt ref paths th false

/-- Path list built at the top of `matchFromRefs` when stripping is on:
every local relative path joined below `subPath`
(src/retrodep/vendored.go lines 171-176). -/
def stripPaths (strip : Bool) (hashes : FileHashes) (subPath : String) :
    List String :=
  if strip then hashes.hashes.map (fun e => goJoin subPath e.1) else []

/-- Inner `matchFromRef` closure of `matchFromRefs`
(src/retrodep/vendored.go lines 178-200): an immediate subset match
succeeds; without stripping anything else fails; with stripping, every
local path must exist upstream, and after re-hashing the match is
re-tested only if some hash changed. -/
def matchFromRef (strip : Bool) (hashes : FileHashes) (wt : WorkingTree)
    (paths : List String) (th : FileHashes) (ref : String) :
    Except Err Bool :=
  if hashes.IsSubsetOf th then .ok true
  else if ¬ strip then .ok false
  else if paths.any (fun p => th.lookup p = none) then .ok false
  else
    match updateHashesAfterStrip th wt ref paths with
    | .error e => .error e
    | .ok (th', changed) => .ok (changed && hashes.IsSubsetOf th')

/-- Candidate loop of `matchFromRefs` (src/retrodep/vendored.go lines
202-222): `ErrorInvalidRef` from the hash enumeration skips the
candidate, any other error aborts; a non-match after at least one match
ends the run. -/
def matchLoop (strip : Bool) (hashes : FileHashes) (wt : WorkingTree)
    (subPath : String) (paths : List String) :
    List String → List String → Except Err (List String)
  | [], ms => .ok ms
  | ref :: rest, ms =>
    match wt.fileHashesFromRef ref subPath with
    | .error e =>
      if e = .invalidRef then matchLoop strip hashes wt subPath paths rest ms
      else .error e
    | .ok refHashes =>
      match matchFromRef strip hashes wt paths refHashes ref with
      | .error e => .error e
      | .ok true => matchLoop strip hashes wt subPath paths rest (ms ++ [ref])
      | .ok false =>
        if ms ≠ [] then .ok ms
        else matchLoop strip hashes wt subPath paths rest ms

/-- Model of `matchFromRefs` (src/retrodep/vendored.go lines 170-229):
scan the candidate refs for a run of matches; an empty result is
`ErrorVersionNotFound`. -/
def matchFromRefs (strip : Bool) (hashes : FileHashes) (wt : WorkingTree)
    (subPath : String) (refs : List String) : Except Err (List String) :=
  match matchLoop strip hashes wt subPath (stripPaths strip hashes subPath) refs [] with
  | .error e => .error e
  | .ok ms =>
    if ms = [] then .error .versionNotFound else .ok ms

/-- Dot-file filtering of `DescribeProject` (src/retrodep/vendored.go
lines 311-316): entries whose relative path starts with "." are
dropped. -/
def dropDotFiles (fh : FileHashes) : FileHashes :=
  ⟨fh.hashes.filter (fun e => ¬ goStartsWith e.1 ".")⟩

/-- Revision phase of `DescribeProject` (src/retrodep/vendored.go lines
384-407): enumerate all revisions, match, and build a pseudo-version
Reference from the newest matching revision (`matches[0]`; indexing an
empty slice is a Go panic). -/
def revisionPhase (strip : Bool) (hashes : FileHashes) (project : RepoPath)
    (wt : WorkingTree) : Except Err Reference :=
  match wt.revisions with
  | .error e => .error e
  | .ok revs =>
    match matchFromRefs strip hashes wt project.subPath revs with
    | .error e => .error e
    | .ok ms =>
      match ms with
      | [] => .error .indexOutOfRange
      | rev :: _ =>
        match pseudoVersion wt.describable rev with
        | .error e => .error e
        | .ok ver => .ok ⟨project.root, project.repo, "", rev, ver⟩

/-- Tag phase of `DescribeProject` (src/retrodep/vendored.go lines
354-382): match against the semver tags, choose the best tag of the
matching run, resolve it to a revision; `ErrorVersionNotFound` falls
through to the revision phase. -/
def tagPhase (strip : Bool) (hashes : FileHashes) (project : RepoPath)
    (wt : WorkingTree) : Except Err Reference :=
  match wt.versionTags with
  | .error e => .error e
  | .ok tags =>
    match matchFromRefs strip hashes wt project.subPath tags with
    | .ok ms =>
      match chooseBestTag ms with
      | none => .error .indexOutOfRange
      | some tag =>
        match wt.revisionFromTag tag with
        | .error e => .error e
        | .ok rev => .ok ⟨project.root, project.repo, tag, rev, tag⟩
    | .error .versionNotFound => revisionPhase strip hashes project wt
    | .error e => .error e

/-- Model of `DescribeProject` (src/retrodep/vendored.go lines 277-408)
from the point where the local file hashes have been computed:
`rawHashes` is the `NewFileHashes` result for the local directory,
`usesGodep` is `src.usesGodep`, and `dirIsTop` states that the directory
is the top-level project path.  Dot-files are dropped, an empty table
yields `ErrorNoFiles`, then the pinned-version, tag and revision phases
run in order.  The working-tree construction, hasher selection and
exclude-set plumbing that precede the hashing are abstracted into the
inputs. -/
def describeProject (rawHashes : FileHashes) (usesGodep : Bool)
    (dirIsTop : Bool) (project : RepoPath) (wt : WorkingTree) :
    Except Err Reference :=
  let hashes := dropDotFiles rawHashes
  if hashes.hashes = [] then .error .noFiles
  else
    let strip := usesGodep && !dirIsTop
    if project.version ≠ "" then
      match matchFromRefs strip hashes wt project.subPath [project.version] with
      | .ok ms =>
        match ms with
        | [] => .error .indexOutOfRange
        | m :: _ =>
          match pseudoVersion wt.describable m with
          | .error e => .error e
          | .ok ver => .ok ⟨project.root, project.repo, "", m, ver⟩
      | .error .versionNotFound => tagPhase strip hashes project wt
      | .error e => .error e
    else tagPhase strip hashes project wt

/-!
NewFileHashes tree walk (src/unnamed/part_003 lines 86-164).

The filesystem below the walk root is a tree of files (with their
regularity bit; content hashing is abstracted into the supplied hasher)
and directories carrying the lines of their `.gitattributes` file when
one exists.  `filepath.Walk` visits a directory before its children and
honours `SkipDir`.  The source copies the caller's `excludes` map into a
private map `excl` and then mutates only the copy; the walk state below
carries both maps so that this frame property is expressible.
-/

/-- Node of the filesystem tree beneath the walk root. -/
inductive FSNode where
  | file (fname : String) (regular : Bool)
  | dir (dname : String) (gitattrs : Option (List String))
      (children : List FSNode)
  deriving Repr

/-- Name of a node. -/
def FSNode.name : FSNode → String
  | .file n _ => n
  | .dir n _ _ => n

/-- Abstract hasher `h.Hash(relativePath, absPath)`. -/
abbrev HasherM := String → String → Except Err FileHash

/-- Mutable state during the `NewFileHashes` walk: the caller's
`excludes` map, the function's private copy `excl`, and the accumulated
hash table.  The source writes only to `excl`. -/
structure WalkState where
  callerExcludes : List String
  excl : List String
  hashes : List (String × FileHash)
  deriving DecidableEq, Repr

/-- Processing of a `.gitattributes` file in directory `path`
(src/unnamed/part_003 lines 126-140): for every line whose second or
later whitespace-separated field is literally `export-subst`, add the
directory-joined first field to the private exclusion copy. -/
def processGitattributes (path : String) (lines : List String)
    (excl : List String) : List String :=
  lines.foldl (fun excl line =>
    match goFields line with
    | [] => excl
    | [_] => excl
    | f0 :: rest =>
      if rest.contains "export-subst" then excl ++ [goJoin path f0]
      else excl) excl

mutual

/-- Walk of one node (the source's `walkfn` plus `filepath.Walk`'s
recursion), fuel-limited on tree depth: excluded paths are skipped (for
a directory, the whole subtree); a directory's `.gitattributes` extends
the private exclusion copy before its children are visited; a regular
non-excluded file is hashed under its root-relative path. -/
def walkNode (h : HasherM) (root : String) :
    Nat → String → FSNode → WalkState → Except Err WalkState
  | 0, _, _, _ => .error (.ioFailure "walk depth exhausted")
  | fuel + 1, p, n, st =>
    match n with
    | .file _ regular =>
      if st.excl.contains p then .ok st
      else if ¬ regular then .ok st
      else
        match goRel root p with
        | .error e => .error e
        | .ok rel =>
          match h rel p with
          | .error e => .error e
          | .ok fh => .ok { st with hashes := insertHash st.hashes rel fh }
    | .dir _ ga children =>
      if st.excl.contains p then .ok st
      else
        let st' :=
          match ga with
          | none => st
          | some lines => { st with excl := processGitattributes p lines st.excl }
        walkChildren h root fuel p children st'

/-- Walk of a directory's children, in order. -/
def walkChildren (h : HasherM) (root : String) :
    Nat → String → List FSNode → WalkState → Except Err WalkState
  | _, _, [], st => .ok st
  | fuel, p, c :: rest, st =>
    match walkNode h root fuel (goJoin p c.name) c st with
    | .error e => .error e
    | .ok st' => walkChildren h root fuel p rest st'
end

/-- Model of `NewFileHashes` (src/unnamed/part_003 lines 86-164): copy
the caller's exclusion set into the private `excl`, walk the tree from
the root, and return the hash table together with the final state of
both exclusion maps. -/
def newFileHashes (h : HasherM) (root : String) (excludes : List String)
    (tree : FSNode) (fuel : Nat) : Except Err (FileHashes × WalkState) :=
  let st : WalkState :=
    { callerExcludes := excludes, excl := excludes, hashes := [] }
  match walkNode h root fuel root tree st with
  | .error e => .error e
  | .ok st' => .ok (⟨st'.hashes⟩, st')

/-- Well-formedness of a working tree: none of its operations reports the
index-out-of-range marker (a VCS subprocess returns real errors, never
the marker of a Go runtime panic of the calling code). -/
def WorkingTree.NoIndexPanicErrors (wt : WorkingTree) : Prop :=
  wt.versionTags ≠ .error .indexOutOfRange ∧
  wt.revisions ≠ .error .indexOutOfRange ∧
  (∀ t, wt.revisionFromTag t ≠ .error .indexOutOfRange) ∧
  (∀ r s, wt.fileHashesFromRef r s ≠ .error .indexOutOfRange) ∧
  (∀ r, wt.revSync r ≠ .error .indexOutOfRange) ∧
  (∀ r q, wt.stripAndHash r q ≠ .error .indexOutOfRange) ∧
  (∀ r, wt.reachableTag r ≠ .error .indexOutOfRange) ∧
  (∀ r, wt.timeFromRevision r ≠ .error .indexOutOfRange)

/-!
Concrete instances used by the examples, witnesses and counterexamples:
a one-file project whose hash table matches upstream tag v1.0.0 and the
single upstream revision; ref v2.0.0 yields the upstream "not a valid
object name" failure.
-/

/-- Local file hashes of the concrete example project. -/
def cexHashes : FileHashes := ⟨[("a.go", "h1")]⟩

/-- The single upstream revision of the concrete example. -/
def cexRev0 : String := "0123456789abcdef0123456789abcdef01234567"

/-- Project record of the concrete example (no pinned version). -/
def cexProject : RepoPath := ⟨"example.com/foo", "https://example.com/foo", "", ""⟩

/-- Upstream `git ls-tree -r` outcome per ref in the concrete example:
`v2.0.0` fails with the invalid-object-name message, every other ref
lists the single matching file. -/
def cexLsTree (ref : String) : RunResult :=
  if ref = "v2.0.0" then .err "fatal: Not a valid object name v2.0.0"
  else .ok ["100644 blob h1\ta.go"]

/-- Working tree of the concrete example; its hash enumeration goes
through the git error mapping of `gitFileHashesFromRef`. -/
def cexWT : WorkingTree :=
  { versionTags := .ok ["v2.0.0", "v1.0.0"],
    revisions := .ok [cexRev0],
    revisionFromTag := fun t => .ok ("rev-" ++ t),
    fileHashesFromRef := fun ref subPath =>
      gitFileHashesFromRef (cexLsTree ref) subPath,
    revSync := fun _ => .ok (),
    stripAndHash := fun _ _ => .ok none,
    reachableTag := fun _ => .error .versionNotFound,
    timeFromRevision := fun _ => .ok ⟨2006, 1, 2, 15, 4, 5, 0⟩ }

/-- Variant of the example working tree whose enumeration of `v2.0.0`
fails with an error other than the invalid-ref sentinel. -/
def cexBadWT : WorkingTree :=
  { cexWT with
    fileHashesFromRef := fun ref subPath =>
      if ref = "v2.0.0" then .error (.ioFailure "exec: git: broken pipe")
      else gitFileHashesFromRef (cexLsTree ref) subPath }

/-- Filesystem tree of the concrete `NewFileHashes` example: one
excluded file, one `export-subst` file and a subdirectory. -/
def cexTree : FSNode :=
  .dir "root" (some ["secret.go export-subst"])
    [.file "a.go" true, .file "skip.go" true, .file "secret.go" true,
     .dir "sub" none [.file "b.go" true]]

/-- Hasher of the concrete `NewFileHashes` example. -/
def cexHasher : HasherM := fun rel _ => .ok ("h-" ++ rel)

/-- Working tree with constant operations, used by witnesses that need a
well-formed tree. -/
def cexPlainWT : WorkingTree :=
  { versionTags := .ok ["v1.0.0"],
    revisions := .ok [cexRev0],
    revisionFromTag := fun t => .ok ("rev-" ++ t),
    fileHashesFromRef := fun _ _ => .ok cexHashes,
    revSync := fun _ => .ok (),
    stripAndHash := fun _ _ => .ok none,
    reachableTag := fun _ => .error .versionNotFound,
    timeFromRevision := fun _ => .ok ⟨2006, 1, 2, 15, 4, 5, 0⟩ }

end Retrodep

namespace Retrodep

/-!
Theorems.  Every remaining declaration is a lemma or a claim theorem
about the definitions above.
-/

theorem lookup_self_of_nodup {l : List (String × FileHash)}
    (hnd : (l.map Prod.fst).Nodup) {p : String} {v : FileHash}
    (hmem : (p, v) ∈ l) : FileHashes.lookup ⟨l⟩ p = some v := by
  induction l with
  | nil => cases hmem
  | cons e rest ih =>
    simp only [List.map_cons, List.nodup_cons] at hnd
    rcases List.mem_cons.mp hmem with h | h
    · subst h
      simp only [FileHashes.lookup]
      rw [List.find?_cons_of_pos _ (by simp)]
      rfl
    · have hne : ¬ (e.1 = p) := fun hc => hnd.1 (hc ▸ List.mem_map_of_mem Prod.fst h)
      have ih' := ih hnd.2 h
      simp only [FileHashes.lookup] at ih' ⊢
      rwa [List.find?_cons_of_neg _ (by simp [hne])]

theorem mismatchesLoop_self {s : FileHashes}
    (hnd : (s.hashes.map Prod.fst).Nodup) (failFast : Bool) :
    ∀ l, (∀ e ∈ l, e ∈ s.hashes) → mismatchesLoop s failFast l [] = [] := by
  intro l
  induction l with
  | nil => intro _; rfl
  | cons e rest ih =>
    intro hsub
    have hse : e ∈ s.hashes := hsub e (List.mem_cons_self e rest)
    have hlk : s.lookup e.1 = some e.2 :=
      lookup_self_of_nodup hnd (p := e.1) (v := e.2) (by simpa using hse)
    rw [mismatchesLoop]
    simp [hlk, ih (fun x hx => hsub x (List.mem_cons_of_mem e hx))]

theorem head?_filter (p : String → Bool) :
    ∀ L : List String, (L.filter p).head? = L.find? p := by
  intro L
  induction L with
  | nil => rfl
  | cons a L ih =>
    by_cases h : p a <;> simp [List.filter_cons, List.find?_cons, h, ih]

theorem find?_reverse_eq_getLast?_filter (p : String → Bool) (l : List String) :
    l.reverse.find? p = (l.filter p).getLast? := by
  rw [← head?_filter, List.filter_reverse, List.head?_reverse]

/-- C3: for every non-empty list of tags, if the list contains at least
one tag parsing as a semver with empty prerelease then `chooseBestTag`
returns the last such tag in input order, and otherwise it returns the
last tag of the list; in particular on the list `1.2.3-beta1`, `1.2.2`,
`1.2.2-beta2` it returns `1.2.2`. -/
theorem chooseBestTag_spec (tags : List String) (hne : tags ≠ []) :
    (chooseBestTag tags =
      if tags.filter isReleaseSemverTag = [] then some (tags.getLast hne)
      else (tags.filter isReleaseSemverTag).getLast?) ∧
    chooseBestTag ["1.2.3-beta1", "1.2.2", "1.2.2-beta2"] = some "1.2.2" := by
  refine ⟨?_, by decide⟩
  rw [chooseBestTag, find?_reverse_eq_getLast?_filter]
  by_cases h : tags.filter isReleaseSemverTag = []
  · simp [h, List.getLast?_eq_getLast tags hne]
  · cases hg : (tags.filter isReleaseSemverTag).getLast? with
    | none => exact absurd (List.getLast?_eq_none_iff.mp hg) h
    | some t => simp [h, hg]

/-- Witness for `chooseBestTag_spec` at a concrete tag list. -/
theorem chooseBestTag_spec_witness :
    (chooseBestTag ["v2.0.0-rc1", "v1.0.0"] =
      if ["v2.0.0-rc1", "v1.0.0"].filter isReleaseSemverTag = [] then
        some (["v2.0.0-rc1", "v1.0.0"].getLast (by decide))
      else (["v2.0.0-rc1", "v1.0.0"].filter isReleaseSemverTag).getLast?) ∧
    chooseBestTag ["1.2.3-beta1", "1.2.2", "1.2.2-beta2"] = some "1.2.2" :=
  chooseBestTag_spec ["v2.0.0-rc1", "v1.0.0"] (by decide)

/-- C2 counterexample: the claim renders `TS` as the timestamp formatted
as YYYYMMDDHHMMSS in UTC, which makes the output a function of the
absolute instant `TimeFromRevision` returns.  The two Describables below
return the same instant (equal `instantSeconds`), written at offsets
+01:00 and +00:00; the code formats the wall-clock fields in the
timestamp's own offset, so the two outputs differ — the +01:00 timestamp
yields the digits 20060102150405 where the UTC rendering of that instant
is 20060102140405. -/
theorem pseudoVersion_utc_counterexample :
    instantSeconds cexTimePlus1 = instantSeconds cexTimeUTC ∧
    pseudoVersion cexDescribablePlus1 exampleRev =
      .ok "v1.2.1-0.20060102150405-d4c3dbfa77a7" ∧
    pseudoVersion cexDescribableUTC exampleRev =
      .ok "v1.2.1-0.20060102140405-d4c3dbfa77a7" ∧
    pseudoVersion cexDescribablePlus1 exampleRev ≠
      pseudoVersion cexDescribableUTC exampleRev := by
  refine ⟨by decide, by decide, by decide, by decide⟩

/-- C2 (amended): for every revision of length at least 12 and every
Describable whose timestamp lookup succeeds, `PseudoVersion` returns the
concatenation of `V`, `SUFFIX`, `TS` and the dash-prefixed first 12
characters of the revision, with `V` and `SUFFIX` chosen by the
reachable-tag case analysis of the claim, and `TS` the wall-clock
reading of the timestamp formatted as YYYYMMDDHHMMSS in the timestamp's
own UTC offset (which is the UTC rendering whenever that offset is zero,
as in the example: reachable tag `v1.2.0` at 2006-01-02 15:04:05 UTC
gives `v1.2.1-0.20060102150405-d4c3dbfa77a7`). -/
theorem pseudoVersion_spec (d : Describable) (rev : String) (t : GoTime)
    (h12 : 12 ≤ rev.length) (ht : d.timeFromRevision rev = .ok t) :
    (d.reachableTag rev = .error .versionNotFound →
      pseudoVersion d rev =
        .ok ("v0.0.0" ++ "-0." ++ goFormatTimestamp t ++ "-"
              ++ String.mk (rev.data.take 12))) ∧
    (∀ tag, d.reachableTag rev = .ok tag →
      (semverNewVersion tag = none →
        pseudoVersion d rev =
          .ok (tag ++ "-1." ++ goFormatTimestamp t ++ "-"
                ++ String.mk (rev.data.take 12))) ∧
      (∀ v, semverNewVersion tag = some v →
        (v.prerelease = "" →
          pseudoVersion d rev =
            .ok ("v" ++ v.incPatch.str ++ "-0." ++ goFormatTimestamp t ++ "-"
                  ++ String.mk (rev.data.take 12))) ∧
        (v.prerelease ≠ "" →
          pseudoVersion d rev =
            .ok ("v" ++ v.str ++ ".0." ++ goFormatTimestamp t ++ "-"
                  ++ String.mk (rev.data.take 12))))) ∧
    pseudoVersion exampleDescribable exampleRev =
      .ok "v1.2.1-0.20060102150405-d4c3dbfa77a7" := by
  refine ⟨?_, ?_, by decide⟩
  · intro hvnf
    simp [pseudoVersion, pseudoVersionBase, hvnf, ht, h12]
  · intro tag htag
    refine ⟨?_, ?_⟩
    · intro hparse
      simp [pseudoVersion, pseudoVersionBase, htag, hparse, ht, h12]
    · intro v hv
      refine ⟨?_, ?_⟩
      · intro hpre
        simp [pseudoVersion, pseudoVersionBase, htag, hv, hpre, ht, h12]
      · intro hpre
        simp [pseudoVersion, pseudoVersionBase, htag, hv, hpre, ht, h12]

/-- Witness for `pseudoVersion_spec` at the specification's S2 inputs. -/
theorem pseudoVersion_spec_witness :
    (exampleDescribable.reachableTag exampleRev = .error .versionNotFound →
      pseudoVersion exampleDescribable exampleRev =
        .ok ("v0.0.0" ++ "-0." ++ goFormatTimestamp ⟨2006, 1, 2, 15, 4, 5, 0⟩
              ++ "-" ++ String.mk (exampleRev.data.take 12))) ∧
    (∀ tag, exampleDescribable.reachableTag exampleRev = .ok tag →
      (semverNewVersion tag = none →
        pseudoVersion exampleDescribable exampleRev =
          .ok (tag ++ "-1." ++ goFormatTimestamp ⟨2006, 1, 2, 15, 4, 5, 0⟩
                ++ "-" ++ String.mk (exampleRev.data.take 12))) ∧
      (∀ v, semverNewVersion tag = some v →
        (v.prerelease = "" →
          pseudoVersion exampleDescribable exampleRev =
            .ok ("v" ++ v.incPatch.str ++ "-0."
                  ++ goFormatTimestamp ⟨2006, 1, 2, 15, 4, 5, 0⟩ ++ "-"
                  ++ String.mk (exampleRev.data.take 12))) ∧
        (v.prerelease ≠ "" →
          pseudoVersion exampleDescribable exampleRev =
            .ok ("v" ++ v.str ++ ".0."
                  ++ goFormatTimestamp ⟨2006, 1, 2, 15, 4, 5, 0⟩ ++ "-"
                  ++ String.mk (exampleRev.data.take 12))))) ∧
    pseudoVersion exampleDescribable exampleRev =
      .ok "v1.2.1-0.20060102150405-d4c3dbfa77a7" :=
  pseudoVersion_spec exampleDescribable exampleRev ⟨2006, 1, 2, 15, 4, 5, 0⟩
    (by decide) rfl

/-- C10: `PseudoVersion` slices the first 12 bytes of `rev`
unconditionally once the reachable-tag lookup has not failed fatally and
the timestamp lookup has succeeded: for revisions of length at least 12
it returns a version string embedding exactly the first 12 characters of
`rev`, and for any shorter revision the slice is out of bounds (a Go
runtime panic). -/
theorem pseudoVersion_rev_slice (d : Describable) (rev : String)
    (hr : d.reachableTag rev = .error .versionNotFound ∨
          ∃ tag, d.reachableTag rev = .ok tag)
    (ht : ∃ t, d.timeFromRevision rev = .ok t) :
    (12 ≤ rev.length →
      ∃ stem, pseudoVersion d rev =
        .ok (stem ++ "-" ++ String.mk (rev.data.take 12))) ∧
    (rev.length < 12 → pseudoVersion d rev = .error .goPanic) := by
  obtain ⟨t, ht⟩ := ht
  constructor
  · intro h12
    rcases hr with hvnf | ⟨tag, htag⟩
    · exact ⟨"v0.0.0" ++ "-0." ++ goFormatTimestamp t, by
        simp [pseudoVersion, pseudoVersionBase, hvnf, ht, h12]⟩
    · cases hparse : semverNewVersion tag with
      | none =>
        exact ⟨tag ++ "-1." ++ goFormatTimestamp t, by
          simp [pseudoVersion, pseudoVersionBase, htag, hparse, ht, h12]⟩
      | some v =>
        by_cases hpre : v.prerelease = ""
        · exact ⟨"v" ++ v.incPatch.str ++ "-0." ++ goFormatTimestamp t, by
            simp [pseudoVersion, pseudoVersionBase, htag, hparse, hpre, ht, h12]⟩
        · exact ⟨"v" ++ v.str ++ ".0." ++ goFormatTimestamp t, by
            simp [pseudoVersion, pseudoVersionBase, htag, hparse, hpre, ht, h12]⟩
  · intro hshort
    have h12 : ¬ 12 ≤ rev.length := by omega
    rcases hr with hvnf | ⟨tag, htag⟩
    · simp [pseudoVersion, pseudoVersionBase, hvnf, ht, h12]
    · cases hparse : semverNewVersion tag with
      | none => simp [pseudoVersion, pseudoVersionBase, htag, hparse, ht, h12]
      | some v =>
        by_cases hpre : v.prerelease = ""
        · simp [pseudoVersion, pseudoVersionBase, htag, hparse, hpre, ht, h12]
        · simp [pseudoVersion, pseudoVersionBase, htag, hparse, hpre, ht, h12]

theorem dropWhile_eq_self_of_all_neg {p : Char → Bool} :
    ∀ l : List Char, (∀ c ∈ l, p c = false) → l.dropWhile p = l := by
  intro l h
  cases l with
  | nil => rfl
  | cons a l => simp [List.dropWhile_cons, h a (List.mem_cons_self a l)]

theorem trim_eq_self_of_not_mem {l : List Char} (h : '\n' ∉ l) :
    trimTrailingNewlines l = l := by
  unfold trimTrailingNewlines
  rw [dropWhile_eq_self_of_all_neg, List.reverse_reverse]
  intro c hc
  simp only [decide_eq_false_iff_not]
  rintro rfl
  exact h (List.mem_reverse.mp hc)

theorem trim_append_newline (xs : List Char) :
    trimTrailingNewlines (xs ++ ['\n']) = trimTrailingNewlines xs := by
  unfold trimTrailingNewlines
  simp [List.reverse_append, List.dropWhile_cons]

theorem trim_length_le (l : List Char) :
    (trimTrailingNewlines l).length ≤ l.length := by
  unfold trimTrailingNewlines
  calc (l.reverse.dropWhile (fun c => c = '\n')).reverse.length
      = (l.reverse.dropWhile (fun c => c = '\n')).length := by
        rw [List.length_reverse]
    _ ≤ l.reverse.length := (List.dropWhile_sublist _).length_le
    _ = l.length := List.length_reverse _

theorem chunkNoNewline_append_newline (xs : List Char) :
    chunkNoNewline (xs ++ ['\n']) = false := by
  unfold chunkNoNewline
  rw [trim_append_newline]
  have h1 := trim_length_le xs
  have h2 : (xs ++ ['\n']).length = xs.length + 1 := by simp
  simp only [h2, decide_eq_false_iff_not]
  omega

theorem chunkNoNewline_of_not_mem {l : List Char} (h : '\n' ∉ l) :
    chunkNoNewline l = true := by
  unfold chunkNoNewline
  rw [trim_eq_self_of_not_mem h]
  simp

theorem noTrailingNewline_of_not_mem {l : List Char} (h : '\n' ∉ l) :
    noTrailingNewline l = !l.isEmpty := by
  cases hl : l.getLast? with
  | none =>
    have : l = [] := List.getLast?_eq_none_iff.mp hl
    subst this
    rfl
  | some c =>
    have hne : l ≠ [] := by rintro rfl; simp at hl
    have hgl := List.getLast?_eq_getLast l hne
    rw [hl] at hgl
    have hceq : c = l.getLast hne := Option.some.inj hgl
    have hc : c ∈ l := hceq ▸ List.getLast_mem hne
    have hcn : ¬ c = '\n' := fun hcc => h (hcc ▸ hc)
    cases l with
    | nil => exact absurd rfl hne
    | cons a l => simp [noTrailingNewline, hl, hcn]

theorem noTrailingNewline_append_newline (xs ys : List Char) :
    noTrailingNewline (xs ++ '\n' :: ys) = noTrailingNewline ys := by
  cases ys with
  | nil =>
    show noTrailingNewline (xs ++ ['\n']) = noTrailingNewline []
    simp [noTrailingNewline, List.getLast?_concat]
  | cons y ys =>
    obtain ⟨c, hc⟩ : ∃ c, (y :: ys).getLast? = some c :=
      ⟨_, List.getLast?_eq_getLast _ (by simp)⟩
    have hc3 : ('\n' :: y :: ys).getLast? = some c := by
      rw [List.getLast?_cons_cons, hc]
    unfold noTrailingNewline
    rw [List.getLast?_append, hc3, hc]
    rfl

theorem readChunksAux_flatten : ∀ (cs acc : List Char),
    (readChunksAux acc cs).flatten = acc ++ cs := by
  intro cs
  induction cs with
  | nil =>
    intro acc
    by_cases h : acc = [] <;> simp [readChunksAux, h]
  | cons c cs ih =>
    intro acc
    by_cases hc : c = '\n'
    · subst hc; simp [readChunksAux, ih]
    · simp [readChunksAux, hc, ih]

theorem any_or_distrib (f g : List Char → Bool) :
    ∀ ls : List (List Char),
      ls.any (fun l => f l || g l) = (ls.any f || ls.any g) := by
  intro ls
  induction ls with
  | nil => rfl
  | cons a ls ih =>
    simp only [List.any_cons, ih]
    cases f a <;> cases g a <;> simp

theorem readChunksAux_any_noNl : ∀ (cs acc : List Char), '\n' ∉ acc →
    (readChunksAux acc cs).any chunkNoNewline = noTrailingNewline (acc ++ cs) := by
  intro cs
  induction cs with
  | nil =>
    intro acc hacc
    by_cases h : acc = []
    · subst h; rfl
    · rw [List.append_nil]
      simp [readChunksAux, h, chunkNoNewline_of_not_mem hacc,
            noTrailingNewline_of_not_mem hacc]
  | cons c cs ih =>
    intro acc hacc
    by_cases hc : c = '\n'
    · subst hc
      have h1 := ih [] (by simp)
      rw [List.nil_append] at h1
      rw [readChunksAux, if_pos rfl, List.any_cons, chunkNoNewline_append_newline,
        Bool.false_or, h1, noTrailingNewline_append_newline]
    · have hacc' : '\n' ∉ acc ++ [c] := by
        simp only [List.mem_append, List.mem_singleton]
        rintro (h | h)
        · exact hacc h
        · exact hc h.symm
      have h1 := ih (acc ++ [c]) hacc'
      rw [readChunksAux, if_neg hc, h1, List.append_assoc, List.singleton_append]

theorem stripChunk_eq (l : List Char) :
    stripChunk l = (claimLineOutput l, lineRewritten l || chunkNoNewline l) := by
  unfold stripChunk claimLineOutput lineRewritten chunkNoNewline
  cases h : removeImportComment (trimTrailingNewlines l) <;> simp [h]

theorem stripLoop_spec (ls : List (List Char)) :
    stripLoop ls = ((ls.map claimLineOutput).flatten,
      ls.any (fun l => lineRewritten l || chunkNoNewline l)) := by
  induction ls with
  | nil => rfl
  | cons l ls ih => simp [stripLoop, ih, stripChunk_eq]

/-- C5: `StripImportComment` returns `changed = false` for paths without
the `.go` suffix; for `.go` files the written output is every line of the
file (the chunks concatenate back to the content), each rewritten when it
matches the package-clause-with-import-comment pattern and always
terminated by a newline, and `changed` is true exactly when some line was
rewritten or the file's final line lacked a trailing newline. -/
theorem stripImportComment_spec (path : String) (content : List Char) :
    (¬ goHasSuffix path ".go" = true →
      (stripImportComment path content).2 = false) ∧
    (goHasSuffix path ".go" = true →
      (readChunks content).flatten = content ∧
      (stripImportComment path content).1 =
        ((readChunks content).map claimLineOutput).flatten ∧
      (stripImportComment path content).2 =
        ((readChunks content).any lineRewritten || noTrailingNewline content)) := by
  constructor
  · intro h
    simp [stripImportComment, h]
  · intro h
    refine ⟨readChunksAux_flatten content [], ?_, ?_⟩
    · simp [stripImportComment, h, stripLoop_spec]
    · rw [stripImportComment, if_pos h, stripLoop_spec]
      show ((readChunks content).any fun l => lineRewritten l || chunkNoNewline l) = _
      rw [any_or_distrib, readChunks, readChunksAux_any_noNl content [] (by simp),
        List.nil_append]

/-- Witness for `stripImportComment_spec` at the godep test inputs. -/
theorem stripImportComment_spec_witness :
    (stripImportComment "nonl.txt" "package foo".data).2 = false ∧
    ((readChunks "package foo // import \"x\"\n".data).flatten =
        "package foo // import \"x\"\n".data ∧
      (stripImportComment "importcomment.go" "package foo // import \"x\"\n".data).1 =
        ((readChunks "package foo // import \"x\"\n".data).map claimLineOutput).flatten ∧
      (stripImportComment "importcomment.go" "package foo // import \"x\"\n".data).2 =
        ((readChunks "package foo // import \"x\"\n".data).any lineRewritten ||
          noTrailingNewline "package foo // import \"x\"\n".data)) :=
  ⟨(stripImportComment_spec "nonl.txt" "package foo".data).1 (by decide),
   (stripImportComment_spec "importcomment.go"
      "package foo // import \"x\"\n".data).2 (by decide)⟩

/-- Witness for `pseudoVersion_rev_slice` at the S2 Describable. -/
theorem pseudoVersion_rev_slice_witness :
    (12 ≤ exampleRev.length →
      ∃ stem, pseudoVersion exampleDescribable exampleRev =
        .ok (stem ++ "-" ++ String.mk (exampleRev.data.take 12))) ∧
    (exampleRev.length < 12 →
      pseudoVersion exampleDescribable exampleRev = .error .goPanic) :=
  pseudoVersion_rev_slice exampleDescribable exampleRev
    (Or.inr ⟨"v1.2.0", rfl⟩) ⟨⟨2006, 1, 2, 15, 4, 5, 0⟩, rfl⟩

/-- C8: reflexivity of the hash comparisons — every `FileHashes` value
with the Go-map key invariant (no duplicate keys) is a subset of itself,
and its self-mismatch list is empty for both `failFast` values. -/
theorem fileHashes_reflexive (fh : FileHashes)
    (hnd : (fh.hashes.map Prod.fst).Nodup) :
    fh.IsSubsetOf fh = true ∧
    fh.Mismatches fh false = [] ∧ fh.Mismatches fh true = [] := by
  have h1 := mismatchesLoop_self (s := fh) hnd true fh.hashes (fun _ hx => hx)
  have h2 := mismatchesLoop_self (s := fh) hnd false fh.hashes (fun _ hx => hx)
  exact ⟨by simp [FileHashes.IsSubsetOf, FileHashes.Mismatches, h1], h2, h1⟩

/-- Witness for `fileHashes_reflexive` at a two-entry table. -/
theorem fileHashes_reflexive_witness :
    FileHashes.IsSubsetOf ⟨[("a.go", "h1"), ("b.go", "h2")]⟩
      ⟨[("a.go", "h1"), ("b.go", "h2")]⟩ = true ∧
    FileHashes.Mismatches ⟨[("a.go", "h1"), ("b.go", "h2")]⟩
      ⟨[("a.go", "h1"), ("b.go", "h2")]⟩ false = [] ∧
    FileHashes.Mismatches ⟨[("a.go", "h1"), ("b.go", "h2")]⟩
      ⟨[("a.go", "h1"), ("b.go", "h2")]⟩ true = [] :=
  fileHashes_reflexive ⟨[("a.go", "h1"), ("b.go", "h2")]⟩ (by decide)

theorem matchFromRefs_nonempty_aux {strip : Bool} {hashes : FileHashes}
    {wt : WorkingTree} {subPath : String} {refs ms : List String}
    (hok : matchFromRefs strip hashes wt subPath refs = .ok ms) : ms ≠ [] := by
  unfold matchFromRefs at hok
  cases hml : matchLoop strip hashes wt subPath
      (stripPaths strip hashes subPath) refs [] with
  | error e => rw [hml] at hok; cases hok
  | ok m =>
    rw [hml] at hok
    by_cases hm : m = []
    · simp [hm] at hok
    · simp only [hm, if_false, if_neg hm, Except.ok.injEq] at hok
      subst hok
      exact hm

theorem chooseBestTag_isSome {ms : List String} (h : ms ≠ []) :
    (chooseBestTag ms).isSome = true := by
  unfold chooseBestTag
  cases hf : ms.reverse.find? isReleaseSemverTag with
  | some t => rfl
  | none =>
    cases hl : ms.getLast? with
    | some t => rfl
    | none => exact absurd (List.getLast?_eq_none_iff.mp hl) h

theorem pseudoVersion_no_index (d : Describable) (rev : String)
    (hr : ∀ r, d.reachableTag r ≠ .error .indexOutOfRange)
    (ht : ∀ r, d.timeFromRevision r ≠ .error .indexOutOfRange) :
    pseudoVersion d rev ≠ .error .indexOutOfRange := by
  have htime : ∀ version suffix : String,
      (match d.timeFromRevision rev with
        | .error e => Except.error e
        | .ok t =>
          if 12 ≤ rev.length then
            Except.ok (version ++ suffix ++ goFormatTimestamp t ++ "-"
              ++ String.mk (rev.data.take 12))
          else Except.error Err.goPanic) ≠ Except.error Err.indexOutOfRange := by
    intro version suffix
    cases htt : d.timeFromRevision rev with
    | error e2 =>
      intro hcontra
      have he : e2 = .indexOutOfRange := Except.error.inj hcontra
      exact ht rev (by rw [htt, he])
    | ok t => by_cases h12 : 12 ≤ rev.length <;> simp [h12]
  unfold pseudoVersion
  cases hb : pseudoVersionBase d rev with
  | error e =>
    have he : e ≠ .indexOutOfRange := by
      intro hcontra
      subst hcontra
      unfold pseudoVersionBase at hb
      cases hrt : d.reachableTag rev with
      | error e2 =>
        rw [hrt] at hb
        cases e2 <;> simp_all
      | ok tag =>
        rw [hrt] at hb
        cases hp : semverNewVersion tag with
        | none => simp [hp] at hb
        | some v =>
          by_cases hpre : v.prerelease = "" <;> simp [hp, hpre] at hb
    exact fun hcontra => he (Except.error.inj hcontra)
  | ok vs => exact htime vs.1 vs.2

theorem updateLoop_no_index (wt : WorkingTree) (ref : String)
    (hh : ∀ r q, wt.stripAndHash r q ≠ .error .indexOutOfRange) :
    ∀ paths th any,
      updateLoop wt ref paths th any ≠ .error .indexOutOfRange := by
  intro paths
  induction paths with
  | nil => intro th any hcontra; cases hcontra
  | cons p ps ih =>
    intro th any
    rw [updateLoop]
    cases hsp : wt.stripAndHash ref p with
    | error e =>
      intro hcontra
      exact hh ref p (by rw [hsp, Except.error.inj hcontra])
    | ok o =>
      cases o with
      | none => exact ih th any
      | some h2 => exact ih _ true

theorem matchFromRef_no_index (strip : Bool) (hashes : FileHashes)
    (wt : WorkingTree) (paths : List String) (th : FileHashes) (ref : String)
    (hs : ∀ r, wt.revSync r ≠ .error .indexOutOfRange)
    (hh : ∀ r q, wt.stripAndHash r q ≠ .error .indexOutOfRange) :
    matchFromRef strip hashes wt paths th ref ≠ .error .indexOutOfRange := by
  unfold matchFromRef
  by_cases h1 : hashes.IsSubsetOf th
  · simp [h1]
  · rw [if_neg h1]
    by_cases h2 : ¬ strip
    · simp [h2]
    · rw [if_neg h2]
      by_cases h3 : paths.any (fun p => th.lookup p = none)
      · simp [h3]
      · rw [if_neg h3]
        unfold updateHashesAfterStrip
        cases hrs : wt.revSync ref with
        | error e =>
          intro hcontra
          exact hs ref (by rw [hrs, Except.error.inj hcontra])
        | ok u =>
          cases hul : updateLoop wt ref paths th false with
          | error e =>
            intro hcontra
            exact updateLoop_no_index wt ref hh paths th false
              (by rw [hul, Except.error.inj hcontra])
          | ok pr => intro hcontra; cases hcontra

theorem matchLoop_no_index (strip : Bool) (hashes : FileHashes)
    (wt : WorkingTree) (subPath : String) (paths : List String)
    (hf4 : ∀ r s, wt.fileHashesFromRef r s ≠ .error .indexOutOfRange)
    (hs : ∀ r, wt.revSync r ≠ .error .indexOutOfRange)
    (hh : ∀ r q, wt.stripAndHash r q ≠ .error .indexOutOfRange) :
    ∀ refs acc,
      matchLoop strip hashes wt subPath paths refs acc ≠
        .error .indexOutOfRange := by
  intro refs
  induction refs with
  | nil => intro acc hcontra; cases hcontra
  | cons ref rest ih =>
    intro acc
    rw [matchLoop]
    split
    · rename_i e hf
      by_cases he : e = .invalidRef
      · simpa [he] using ih acc
      · rw [if_neg he]
        intro hcontra
        exact hf4 ref subPath (by rw [hf, Except.error.inj hcontra])
    · rename_i refH hf
      split
      · rename_i e hm
        intro hcontra
        exact matchFromRef_no_index strip hashes wt paths refH ref hs hh
          (by rw [hm, Except.error.inj hcontra])
      · exact ih _
      · by_cases hacc : acc ≠ []
        · rw [if_pos hacc]
          intro hcontra; cases hcontra
        · simpa [hacc] using ih acc

theorem matchFromRefs_no_index (strip : Bool) (hashes : FileHashes)
    (wt : WorkingTree) (subPath : String) (refs : List String)
    (hf4 : ∀ r s, wt.fileHashesFromRef r s ≠ .error .indexOutOfRange)
    (hs : ∀ r, wt.revSync r ≠ .error .indexOutOfRange)
    (hh : ∀ r q, wt.stripAndHash r q ≠ .error .indexOutOfRange) :
    matchFromRefs strip hashes wt subPath refs ≠ .error .indexOutOfRange := by
  unfold matchFromRefs
  cases hml : matchLoop strip hashes wt subPath
      (stripPaths strip hashes subPath) refs [] with
  | error e =>
    intro hcontra
    exact matchLoop_no_index strip hashes wt subPath
      (stripPaths strip hashes subPath) hf4 hs hh refs []
      (by rw [hml, Except.error.inj hcontra])
  | ok m =>
    by_cases hm : m = [] <;> simp [hm]

theorem revisionPhase_no_index (strip : Bool) (hashes : FileHashes)
    (project : RepoPath) (wt : WorkingTree) (hwf : wt.NoIndexPanicErrors) :
    revisionPhase strip hashes project wt ≠ .error .indexOutOfRange := by
  obtain ⟨h1, h2, h3, h4, h5, h6, h7, h8⟩ := hwf
  unfold revisionPhase
  split
  · rename_i e hrv
    intro hcontra
    exact h2 (by rw [hrv, Except.error.inj hcontra])
  · rename_i revs hrv
    split
    · rename_i e hm
      intro hcontra
      exact matchFromRefs_no_index strip hashes wt project.subPath revs
        h4 h5 h6 (by rw [hm, Except.error.inj hcontra])
    · rename_i ms hm
      match ms, hm with
      | [], hm => exact absurd rfl (matchFromRefs_nonempty_aux hm)
      | rev :: more, hm =>
        show (match pseudoVersion wt.describable rev with
              | .error e => Except.error e
              | .ok ver =>
                Except.ok
                  (⟨project.root, project.repo, "", rev, ver⟩ : Reference)) ≠
            Except.error Err.indexOutOfRange
        split
        · rename_i e hp
          intro hcontra
          exact pseudoVersion_no_index wt.describable rev h7 h8
            (by rw [hp, Except.error.inj hcontra])
        · intro hcontra; cases hcontra

theorem tagPhase_no_index (strip : Bool) (hashes : FileHashes)
    (project : RepoPath) (wt : WorkingTree) (hwf : wt.NoIndexPanicErrors) :
    tagPhase strip hashes project wt ≠ .error .indexOutOfRange := by
  have hcopy := hwf
  obtain ⟨h1, h2, h3, h4, h5, h6, h7, h8⟩ := hcopy
  unfold tagPhase
  split
  · rename_i e htg
    intro hcontra
    exact h1 (by rw [htg, Except.error.inj hcontra])
  · rename_i tags htg
    split
    · rename_i ms hm
      split
      · rename_i hbt
        have := chooseBestTag_isSome (matchFromRefs_nonempty_aux hm)
        rw [hbt] at this
        cases this
      · rename_i tag hbt
        split
        · rename_i e hrt
          intro hcontra
          exact h3 tag (by rw [hrt, Except.error.inj hcontra])
        · intro hcontra; cases hcontra
    · exact revisionPhase_no_index strip hashes project wt
        ⟨h1, h2, h3, h4, h5, h6, h7, h8⟩
    · rename_i e hne hm
      intro hcontra
      exact matchFromRefs_no_index strip hashes wt project.subPath tags
        h4 h5 h6 (by rw [hm, Except.error.inj hcontra])

theorem describeProject_no_index (rawHashes : FileHashes)
    (usesGodep dirIsTop : Bool) (project : RepoPath) (wt : WorkingTree)
    (hwf : wt.NoIndexPanicErrors) :
    describeProject rawHashes usesGodep dirIsTop project wt ≠
      .error .indexOutOfRange := by
  have hcopy := hwf
  obtain ⟨h1, h2, h3, h4, h5, h6, h7, h8⟩ := hcopy
  unfold describeProject
  by_cases hempty : (dropDotFiles rawHashes).hashes = []
  · simp only [hempty, if_pos rfl]
    intro hcontra; cases hcontra
  · rw [if_neg hempty]
    by_cases hver : project.version ≠ ""
    · rw [if_pos hver]
      split
      · rename_i ms hm
        match ms, hm with
        | [], hm => exact absurd rfl (matchFromRefs_nonempty_aux hm)
        | m :: more, hm =>
          show (match pseudoVersion wt.describable m with
                | .error e => Except.error e
                | .ok ver =>
                  Except.ok
                    (⟨project.root, project.repo, "", m, ver⟩ : Reference)) ≠
              Except.error Err.indexOutOfRange
          split
          · rename_i e hp
            intro hcontra
            exact pseudoVersion_no_index wt.describable m h7 h8
              (by rw [hp, Except.error.inj hcontra])
          · intro hcontra; cases hcontra
      · exact tagPhase_no_index _ _ project wt
          ⟨h1, h2, h3, h4, h5, h6, h7, h8⟩
      · rename_i e hne hm
        intro hcontra
        exact matchFromRefs_no_index _ _ wt project.subPath _
          h4 h5 h6 (by rw [hm, Except.error.inj hcontra])
    · rw [if_neg hver]
      exact tagPhase_no_index _ _ project wt
        ⟨h1, h2, h3, h4, h5, h6, h7, h8⟩

/-- C9: whenever `matchFromRefs` returns without error its result list is
non-empty (an empty accumulation is reported as `ErrorVersionNotFound`
instead); `chooseBestTag` is total on non-empty lists; and consequently
`DescribeProject` over any well-formed working tree never reaches an
out-of-range indexing panic — in particular `chooseBestTag`, which
unconditionally indexes the last element of its argument, is never
applied to an empty list, and neither pinned nor revision phase ever
indexes `matches[0]` of an empty slice. -/
theorem matcher_safety :
    (∀ (strip : Bool) (hashes : FileHashes) (wt : WorkingTree)
        (subPath : String) (refs ms : List String),
      matchFromRefs strip hashes wt subPath refs = .ok ms → ms ≠ []) ∧
    (∀ ms : List String, ms ≠ [] → (chooseBestTag ms).isSome = true) ∧
    (∀ (rawHashes : FileHashes) (usesGodep dirIsTop : Bool)
        (project : RepoPath) (wt : WorkingTree), wt.NoIndexPanicErrors →
      describeProject rawHashes usesGodep dirIsTop project wt ≠
        .error .indexOutOfRange) :=
  ⟨fun _ _ _ _ _ _ hok => matchFromRefs_nonempty_aux hok,
   fun _ h => chooseBestTag_isSome h,
   fun rawHashes u dT project wt hwf =>
     describeProject_no_index rawHashes u dT project wt hwf⟩

theorem updateLoop_congr (wt wt' : WorkingTree)
    (hh : wt'.stripAndHash = wt.stripAndHash) (ref : String) :
    ∀ paths th any,
      updateLoop wt' ref paths th any = updateLoop wt ref paths th any := by
  intro paths
  induction paths with
  | nil => intro th any; rfl
  | cons p ps ih =>
    intro th any
    rw [updateLoop, updateLoop, hh]
    cases wt.stripAndHash ref p with
    | error e => rfl
    | ok o =>
      cases o with
      | none => exact ih th any
      | some h2 => exact ih _ true

theorem matchFromRef_congr (strip : Bool) (hashes : FileHashes)
    (wt wt' : WorkingTree) (hs : wt'.revSync = wt.revSync)
    (hh : wt'.stripAndHash = wt.stripAndHash)
    (paths : List String) (th : FileHashes) (ref : String) :
    matchFromRef strip hashes wt' paths th ref =
      matchFromRef strip hashes wt paths th ref := by
  unfold matchFromRef updateHashesAfterStrip
  rw [hs, updateLoop_congr wt wt' hh ref paths th false]

theorem matchLoop_congr (strip : Bool) (hashes : FileHashes)
    (wt wt' : WorkingTree)
    (hf : wt'.fileHashesFromRef = wt.fileHashesFromRef)
    (hs : wt'.revSync = wt.revSync)
    (hh : wt'.stripAndHash = wt.stripAndHash)
    (subPath : String) (paths : List String) :
    ∀ refs acc, matchLoop strip hashes wt' subPath paths refs acc =
      matchLoop strip hashes wt subPath paths refs acc := by
  intro refs
  induction refs with
  | nil => intro acc; rfl
  | cons ref rest ih =>
    intro acc
    rw [matchLoop, matchLoop, hf]
    cases wt.fileHashesFromRef ref subPath with
    | error e =>
      by_cases he : e = .invalidRef <;> simp [he, ih]
    | ok refH =>
      simp only [matchFromRef_congr strip hashes wt wt' hs hh paths refH ref]
      cases matchFromRef strip hashes wt paths refH ref with
      | error e => rfl
      | ok b =>
        cases b with
        | true => exact ih _
        | false => by_cases hacc : acc ≠ [] <;> simp [hacc, ih]

theorem matchFromRefs_congr (strip : Bool) (hashes : FileHashes)
    (wt wt' : WorkingTree)
    (hf : wt'.fileHashesFromRef = wt.fileHashesFromRef)
    (hs : wt'.revSync = wt.revSync)
    (hh : wt'.stripAndHash = wt.stripAndHash)
    (subPath : String) (refs : List String) :
    matchFromRefs strip hashes wt' subPath refs =
      matchFromRefs strip hashes wt subPath refs := by
  unfold matchFromRefs
  rw [matchLoop_congr strip hashes wt wt' hf hs hh subPath
    (stripPaths strip hashes subPath) refs []]

theorem tagPhase_ok (strip : Bool) (hashes : FileHashes)
    (project : RepoPath) (wt : WorkingTree) (tags ms : List String)
    (tag rev : String) (htags : wt.versionTags = .ok tags)
    (hm : matchFromRefs strip hashes wt project.subPath tags = .ok ms)
    (htag : chooseBestTag ms = some tag)
    (hrev : wt.revisionFromTag tag = .ok rev) :
    tagPhase strip hashes project wt =
      .ok ⟨project.root, project.repo, tag, rev, tag⟩ := by
  unfold tagPhase
  rw [htags]
  simp only [hm, htag, hrev]

/-- C1 counterexample: the claim as stated quantifies over every project,
but a project with a pinned dependency-management version whose local
hashes match that pinned revision is resolved by the pinned phase, which
precedes the tag phase; the Reference then carries an empty `Tag` and a
pseudo-version even though the local hashes also match the semver tag
`v1.0.0` (and the later non-tag revision `cexRev0`, which is the pinned
ref).  The claim's required `Tag` is the chosen matching tag `v1.0.0`,
but the code returns `Tag = ""`. -/
theorem describeProject_pinned_counterexample :
    matchFromRefs false cexHashes cexWT "" ["v2.0.0", "v1.0.0"] =
      .ok ["v1.0.0"] ∧
    matchFromRefs false cexHashes cexWT "" [cexRev0] = .ok [cexRev0] ∧
    describeProject cexHashes false false
        { cexProject with version := cexRev0 } cexWT =
      .ok ⟨"example.com/foo", "https://example.com/foo", "", cexRev0,
           "v0.0.0-0.20060102150405-0123456789ab"⟩ ∧
    ("" : String) ≠ "v1.0.0" :=
  ⟨by decide, by decide, by decide, by decide⟩

/-- C1 (amended): for every project with NO pinned version whose local
file hashes match both some semver tag and some later non-tag revision,
`DescribeProject` returns the tag-phase Reference — `Tag` is the chosen
matching tag, `Rev` the revision resolved from that tag, `Ver` equals
the chosen tag — and the revision enumeration is never consulted: the
same Reference is returned whatever `wt.revisions` holds, so the
revision phase runs only when the tag phase fails with the
version-not-found error.  (With a pinned version the pinned phase may
pre-empt the tag phase; see the counterexample.) -/
theorem describeProject_tag_precedence
    (rawHashes : FileHashes) (usesGodep dirIsTop : Bool)
    (project : RepoPath) (wt : WorkingTree)
    (hne : (dropDotFiles rawHashes).hashes ≠ [])
    (hver : project.version = "")
    (tags ms : List String) (tag rev : String)
    (htags : wt.versionTags = .ok tags)
    (hm : matchFromRefs (usesGodep && !dirIsTop) (dropDotFiles rawHashes) wt
            project.subPath tags = .ok ms)
    (htag : chooseBestTag ms = some tag)
    (hrev : wt.revisionFromTag tag = .ok rev)
    (hrevmatch : ∃ revs rms, wt.revisions = .ok revs ∧
      matchFromRefs (usesGodep && !dirIsTop) (dropDotFiles rawHashes) wt
        project.subPath revs = .ok rms) :
    describeProject rawHashes usesGodep dirIsTop project wt =
      .ok ⟨project.root, project.repo, tag, rev, tag⟩ ∧
    ∀ revs', describeProject rawHashes usesGodep dirIsTop project
        { wt with revisions := revs' } =
      .ok ⟨project.root, project.repo, tag, rev, tag⟩ := by
  have hver' : ¬ project.version ≠ "" := by simp [hver]
  constructor
  · unfold describeProject
    rw [if_neg hne, if_neg hver']
    exact tagPhase_ok _ _ project wt tags ms tag rev htags hm htag hrev
  · intro revs'
    unfold describeProject
    rw [if_neg hne, if_neg hver']
    have hm' : matchFromRefs (usesGodep && !dirIsTop) (dropDotFiles rawHashes)
        { wt with revisions := revs' } project.subPath tags = .ok ms := by
      rw [matchFromRefs_congr _ _ wt { wt with revisions := revs' }
        rfl rfl rfl]
      exact hm
    exact tagPhase_ok _ _ project { wt with revisions := revs' } tags ms tag rev
      htags hm' htag hrev

/-- Witness for `describeProject_tag_precedence` at the concrete example
(the revisions field is even replaced by an error in the second
conjunct's instantiation). -/
theorem describeProject_tag_precedence_witness :
    describeProject cexHashes false false cexProject cexWT =
      .ok ⟨"example.com/foo", "https://example.com/foo", "v1.0.0",
           "rev-v1.0.0", "v1.0.0"⟩ ∧
    describeProject cexHashes false false cexProject
        { cexWT with revisions := .error (.ioFailure "network down") } =
      .ok ⟨"example.com/foo", "https://example.com/foo", "v1.0.0",
           "rev-v1.0.0", "v1.0.0"⟩ :=
  ⟨(describeProject_tag_precedence cexHashes false false cexProject cexWT
      (by decide) rfl ["v2.0.0", "v1.0.0"] ["v1.0.0"] "v1.0.0" "rev-v1.0.0"
      rfl (by decide) (by decide) rfl
      ⟨[cexRev0], [cexRev0], rfl, by decide⟩).1,
   (describeProject_tag_precedence cexHashes false false cexProject cexWT
      (by decide) rfl ["v2.0.0", "v1.0.0"] ["v1.0.0"] "v1.0.0" "rev-v1.0.0"
      rfl (by decide) (by decide) rfl
      ⟨[cexRev0], [cexRev0], rfl, by decide⟩).2
     (.error (.ioFailure "network down"))⟩

/-- C4: during candidate enumeration, an upstream failure whose
lowercased output starts with "fatal: not a valid object name " or
"fatal: not a tree object" is mapped by `FileHashesFromRef` to the
invalid-ref sentinel; `matchFromRefs` silently skips a candidate whose
enumeration fails with that sentinel and aborts on any other enumeration
error; and in the concrete scenario with tags `v2.0.0` (invalid ref) and
`v1.0.0` (matching), `DescribeProject` returns `Tag = "v1.0.0"`. -/
theorem invalidRef_skipping :
    (∀ (out subPath : String),
      (goStartsWith (goToLower out) "fatal: not a valid object name " = true ∨
       goStartsWith (goToLower out) "fatal: not a tree object" = true) →
      gitFileHashesFromRef (.err out) subPath = .error .invalidRef) ∧
    (∀ (strip : Bool) (hashes : FileHashes) (wt : WorkingTree)
        (subPath ref : String) (rest : List String),
      wt.fileHashesFromRef ref subPath = .error .invalidRef →
      matchFromRefs strip hashes wt subPath (ref :: rest) =
        matchFromRefs strip hashes wt subPath rest) ∧
    (∀ (strip : Bool) (hashes : FileHashes) (wt : WorkingTree)
        (subPath ref : String) (rest : List String) (e : Err),
      wt.fileHashesFromRef ref subPath = .error e → e ≠ .invalidRef →
      matchFromRefs strip hashes wt subPath (ref :: rest) = .error e) ∧
    describeProject cexHashes false false cexProject cexWT =
      .ok ⟨"example.com/foo", "https://example.com/foo", "v1.0.0",
           "rev-v1.0.0", "v1.0.0"⟩ := by
  refine ⟨?_, ?_, ?_, by decide⟩
  · intro out subPath h
    show (if goStartsWith (goToLower out)
            "fatal: not a valid object name " = true then
          Except.error Err.invalidRef
        else if goStartsWith (goToLower out)
            "fatal: not a tree object" = true then
          Except.error Err.invalidRef
        else Except.error (Err.ioFailure out)) = Except.error Err.invalidRef
    rcases h with h | h
    · rw [if_pos h]
    · by_cases h1 : goStartsWith (goToLower out)
          "fatal: not a valid object name " = true
      · rw [if_pos h1]
      · rw [if_neg h1, if_pos h]
  · intro strip hashes wt subPath ref rest hf
    unfold matchFromRefs
    rw [matchLoop, hf]
    rfl
  · intro strip hashes wt subPath ref rest e hf hne
    unfold matchFromRefs
    rw [matchLoop, hf]
    simp [hne]

/-- Witness for `invalidRef_skipping` at the concrete example. -/
theorem invalidRef_skipping_witness :
    gitFileHashesFromRef (.err "fatal: Not a valid object name v2.0.0") "" =
      .error .invalidRef ∧
    matchFromRefs false cexHashes cexWT "" ["v2.0.0", "v1.0.0"] =
      matchFromRefs false cexHashes cexWT "" ["v1.0.0"] ∧
    matchFromRefs false cexHashes cexBadWT "" ["v2.0.0", "v1.0.0"] =
      .error (.ioFailure "exec: git: broken pipe") :=
  ⟨invalidRef_skipping.1 "fatal: Not a valid object name v2.0.0" ""
      (Or.inl (by decide)),
   invalidRef_skipping.2.1 false cexHashes cexWT "" "v2.0.0" ["v1.0.0"]
      (by decide),
   invalidRef_skipping.2.2.1 false cexHashes cexBadWT "" "v2.0.0" ["v1.0.0"]
      (.ioFailure "exec: git: broken pipe") (by decide) (by decide)⟩

theorem splitOnChar_ne_nil (sep : Char) (l : List Char) :
    splitOnChar sep l ≠ [] := by
  cases l with
  | nil => simp [splitOnChar]
  | cons c cs =>
    simp only [splitOnChar]
    by_cases hc : c = sep
    · simp [hc]
    · simp only [if_neg hc]
      cases splitOnChar sep cs <;> simp

theorem splitOnChar_append (sep : Char) (ys : List Char) :
    ∀ xs, splitOnChar sep (xs ++ sep :: ys) =
      splitOnChar sep xs ++ splitOnChar sep ys := by
  intro xs
  induction xs with
  | nil => simp [splitOnChar]
  | cons c cs ih =>
    by_cases hc : c = sep
    · subst hc
      simp [splitOnChar, ih]
    · simp only [List.cons_append, splitOnChar, if_neg hc, List.append_eq]
      rw [ih]
      cases hcs : splitOnChar sep cs with
      | nil => exact absurd hcs (splitOnChar_ne_nil sep cs)
      | cons g gs => simp

theorem joinChar_splitOnChar (sep : Char) : ∀ l : List Char,
    joinChar sep (splitOnChar sep l) = l := by
  intro l
  induction l with
  | nil => rfl
  | cons c cs ih =>
    by_cases hc : c = sep
    · subst hc
      simp only [splitOnChar, if_pos rfl]
      cases hcs : splitOnChar c cs with
      | nil => exact absurd hcs (splitOnChar_ne_nil c cs)
      | cons g gs =>
        rw [hcs] at ih
        show joinChar c ([] :: g :: gs) = c :: cs
        show [] ++ c :: joinChar c (g :: gs) = c :: cs
        simpa using ih
    · simp only [splitOnChar, if_neg hc]
      cases hcs : splitOnChar sep cs with
      | nil => exact absurd hcs (splitOnChar_ne_nil sep cs)
      | cons g gs =>
        rw [hcs] at ih
        cases gs with
        | nil =>
          show joinChar sep [c :: g] = c :: cs
          show c :: g = c :: cs
          have ih2 : g = cs := ih
          rw [ih2]
        | cons g2 gs2 =>
          show joinChar sep ((c :: g) :: g2 :: gs2) = c :: cs
          show (c :: g) ++ sep :: joinChar sep (g2 :: gs2) = c :: cs
          have ih2 : g ++ sep :: joinChar sep (g2 :: gs2) = cs := ih
          rw [← ih2]
          simp

theorem joinSegs_map_mk : ∀ gs : List (List Char),
    joinSegs (gs.map String.mk) = String.mk (joinChar '/' gs) := by
  intro gs
  induction gs with
  | nil => rfl
  | cons g gs ih =>
    cases gs with
    | nil => rfl
    | cons g2 gs2 =>
      show String.mk g ++ "/" ++ joinSegs ((g2 :: gs2).map String.mk) =
        String.mk (g ++ '/' :: joinChar '/' (g2 :: gs2))
      rw [ih]
      apply String.ext
      simp [String.data_append]

theorem joinSegs_splitSlash (s : String) : joinSegs (splitSlash s) = s := by
  unfold splitSlash
  rw [joinSegs_map_mk, joinChar_splitOnChar]

theorem splitSlash_append (a b : String) :
    splitSlash (a ++ "/" ++ b) = splitSlash a ++ splitSlash b := by
  unfold splitSlash
  have hd : (a ++ "/" ++ b).data = a.data ++ '/' :: b.data := by
    simp [String.data_append]
  rw [hd, splitOnChar_append, List.map_append]

theorem dropCommonSegs_append : ∀ xs ys : List String,
    dropCommonSegs xs (xs ++ ys) = ([], ys) := by
  intro xs ys
  induction xs with
  | nil => cases ys <;> rfl
  | cons x xs ih => simpa [dropCommonSegs] using ih

/-- Re-basing below a sub-path: `goRel` on a path of the form
`base ++ "/" ++ rest` (with no ".." segment in `rest`) yields `rest`. -/
theorem goRel_under (base rest : String) (hb : base ≠ ".")
    (hne : ¬ (base ++ "/" ++ rest) = base)
    (hnd : ¬ (base ++ "/" ++ rest) = ".")
    (hdd : (splitSlash rest).contains ".." = false) :
    goRel base (base ++ "/" ++ rest) = .ok rest := by
  unfold goRel
  rw [if_neg hne]
  simp only [if_neg hb, if_neg hnd]
  rw [splitSlash_append, dropCommonSegs_append]
  simp only [hdd]
  rw [if_neg (by simp [hdd])]
  simp [joinSegs_splitSlash]

theorem splitFirstTab_append (meta path : String) (hm : '\t' ∉ meta.data) :
    splitFirstTab (meta ++ "\t" ++ path) = some (meta, path) := by
  unfold splitFirstTab
  have hd : (meta ++ "\t" ++ path).data = meta.data ++ '\t' :: path.data := by
    simp [String.data_append]
  rw [hd]
  have htake : ∀ md : List Char, '\t' ∉ md →
      (md ++ '\t' :: path.data).takeWhile (fun c => ¬ c = '\t') = md := by
    intro md
    induction md with
    | nil => intro _; simp [List.takeWhile]
    | cons c cs ih =>
      intro hmd
      have hc : ¬ c = '\t' := fun hcc => hmd (hcc ▸ List.mem_cons_self c cs)
      have hcs : '\t' ∉ cs := fun hx => hmd (List.mem_cons_of_mem c hx)
      have ih2 := ih hcs
      simp only [decide_not] at ih2
      simp [List.cons_append, List.takeWhile_cons, hc, ih2]
  rw [htake meta.data hm]
  have hdrop : (meta.data ++ '\t' :: path.data).drop meta.data.length =
      '\t' :: path.data := by
    rw [List.drop_left]
  simp only [hdrop]

theorem three_fields {l : List String} {h : String} (hl : l.length = 3)
    (hlast : l.getLast? = some h) : ∃ m t, l = [m, t, h] := by
  match l, hl with
  | [a, b, c], _ =>
    have : c = h := by
      simp [List.getLast?] at hlast
      exact hlast
    exact ⟨a, b, by rw [this]⟩

theorem gitLsTreeLoop_spec (subPath : String) :
    ∀ (entries : List ((String × String) × String × String))
      (acc : List (String × FileHash)),
      (∀ e ∈ entries, '\t' ∉ e.1.1.data ∧
        ((goFields e.1.1).length = 3 ∧
          (goFields e.1.1).getLast? = some e.2.2) ∧
        (subPath = "" → e.2.1 = e.1.2) ∧
        (subPath ≠ "" → goRel subPath e.1.2 = .ok e.2.1)) →
      gitLsTreeLoop subPath
          (entries.map (fun e => e.1.1 ++ "\t" ++ e.1.2)) acc =
        .ok ⟨entries.foldl (fun acc e => insertHash acc e.2.1 e.2.2) acc⟩ := by
  intro entries
  induction entries with
  | nil => intro acc _; rfl
  | cons e es ih =>
    intro acc hwf
    obtain ⟨htab, ⟨hlen, hlast⟩, hsub, hrel⟩ :=
      hwf e (List.mem_cons_self e es)
    obtain ⟨m, t, hfields⟩ := three_fields hlen hlast
    rw [List.map_cons, gitLsTreeLoop, gitLsTreeLine,
      splitFirstTab_append e.1.1 e.1.2 htab]
    by_cases hsp : subPath = ""
    · subst hsp
      simp only [hfields, reduceIte]
      rw [show e.1.2 = e.2.1 from (hsub rfl).symm, List.foldl_cons]
      exact ih _ (fun x hx => hwf x (List.mem_cons_of_mem e hx))
    · simp only [if_neg hsp, hrel hsp, hfields]
      rw [List.foldl_cons]
      exact ih _ (fun x hx => hwf x (List.mem_cons_of_mem e hx))

/-- C6: `FileHashesFromRef` builds its table from the `git ls-tree -r`
lines by splitting each line at its first TAB — so filenames containing
spaces are preserved intact — keying each entry by the listed path
re-based (via `filepath.Rel`) to be relative to a non-empty `subPath`,
or by the listed path as-is when `subPath` is empty; and re-basing a
listed path of the form `subPath ++ "/" ++ rest` yields `rest`. -/
theorem fileHashesFromRef_spec :
    (∀ (subPath : String)
        (entries : List ((String × String) × String × String)),
      (∀ e ∈ entries, '\t' ∉ e.1.1.data ∧
        ((goFields e.1.1).length = 3 ∧
          (goFields e.1.1).getLast? = some e.2.2) ∧
        (subPath = "" → e.2.1 = e.1.2) ∧
        (subPath ≠ "" → goRel subPath e.1.2 = .ok e.2.1)) →
      gitFileHashesFromRef
          (.ok (entries.map (fun e => e.1.1 ++ "\t" ++ e.1.2))) subPath =
        .ok ⟨entries.foldl (fun acc e => insertHash acc e.2.1 e.2.2) []⟩) ∧
    (∀ meta path : String, '\t' ∉ meta.data →
      splitFirstTab (meta ++ "\t" ++ path) = some (meta, path)) ∧
    (∀ base rest : String, base ≠ "." → ¬ (base ++ "/" ++ rest) = base →
      ¬ (base ++ "/" ++ rest) = "." →
      (splitSlash rest).contains ".." = false →
      goRel base (base ++ "/" ++ rest) = .ok rest) :=
  ⟨fun subPath entries hwf => gitLsTreeLoop_spec subPath entries [] hwf,
   fun meta path hm => splitFirstTab_append meta path hm,
   fun base rest hb hne hnd hdd => goRel_under base rest hb hne hnd hdd⟩

/-- Witness for `fileHashesFromRef_spec` at a two-file listing whose
filenames contain spaces, below sub-path `sub`. -/
theorem fileHashesFromRef_spec_witness :
    gitFileHashesFromRef
        (.ok ["100644 blob aa11\tsub/dir one/a b.go",
              "100644 blob bb22\tsub/c.go"]) "sub" =
      .ok ⟨[("dir one/a b.go", "aa11"), ("c.go", "bb22")]⟩ ∧
    splitFirstTab ("100644 blob aa11" ++ "\t" ++ "sub/dir one/a b.go") =
      some ("100644 blob aa11", "sub/dir one/a b.go") ∧
    goRel "sub" ("sub" ++ "/" ++ "dir one/a b.go") = .ok "dir one/a b.go" := by
  refine ⟨?_, ?_, ?_⟩
  · have h := fileHashesFromRef_spec.1 "sub"
      [(("100644 blob aa11", "sub/dir one/a b.go"), ("dir one/a b.go", "aa11")),
       (("100644 blob bb22", "sub/c.go"), ("c.go", "bb22"))]
      (by
        intro e he
        rcases List.mem_cons.mp he with rfl | he2
        · exact ⟨by decide, ⟨by decide, by decide⟩,
            fun hc => absurd hc (by decide), fun _ => by decide⟩
        · rcases List.mem_cons.mp he2 with rfl | he3
          · exact ⟨by decide, ⟨by decide, by decide⟩,
              fun hc => absurd hc (by decide), fun _ => by decide⟩
          · cases he3)
    simpa using h
  · exact fileHashesFromRef_spec.2.1 "100644 blob aa11" "sub/dir one/a b.go"
      (by decide)
  · exact fileHashesFromRef_spec.2.2 "sub" "dir one/a b.go" (by decide)
      (by decide) (by decide) (by decide)

/-- Witness for `matcher_safety` at the constant working tree. -/
theorem matcher_safety_witness :
    (["v1.0.0"] : List String) ≠ [] ∧
    (chooseBestTag ["v1.0.0"]).isSome = true ∧
    describeProject cexHashes false false cexProject cexPlainWT ≠
      .error .indexOutOfRange :=
  ⟨matcher_safety.1 false cexHashes cexPlainWT "" ["v1.0.0"] ["v1.0.0"]
      (by decide),
   matcher_safety.2.1 ["v1.0.0"] (by decide),
   matcher_safety.2.2 cexHashes false false cexProject cexPlainWT
     ⟨fun h => Except.noConfusion h, fun h => Except.noConfusion h,
      fun _ h => Except.noConfusion h, fun _ _ h => Except.noConfusion h,
      fun _ h => Except.noConfusion h, fun _ _ h => Except.noConfusion h,
      fun _ h => Err.noConfusion (Except.error.inj h),
      fun _ h => Except.noConfusion h⟩⟩

theorem foldl_extend {A B : Type} (f : List A → B → List A)
    (hf : ∀ acc b, ∃ d, f acc b = acc ++ d) :
    ∀ (l : List B) (acc : List A),
      ∃ found, l.foldl f acc = acc ++ found := by
  intro l
  induction l with
  | nil => intro acc; exact Exists.intro [] (by simp)
  | cons b bs ih =>
    intro acc
    obtain ⟨d, hd⟩ := hf acc b
    obtain ⟨found, hfound⟩ := ih (f acc b)
    exact Exists.intro (d ++ found)
      (by rw [List.foldl_cons, hfound, hd, List.append_assoc])

theorem processGitattributes_extend (path : String)
    (lines excl : List String) :
    ∃ found, processGitattributes path lines excl = excl ++ found := by
  refine foldl_extend _ ?_ lines excl
  intro acc line
  cases hg : goFields line with
  | nil => exact Exists.intro [] (by simp [hg])
  | cons f0 rest =>
    cases rest with
    | nil => exact Exists.intro [] (by simp [hg])
    | cons r1 rs =>
      by_cases hc : ((r1 :: rs).contains "export-subst") = true
      · exact Exists.intro [goJoin path f0]
          (by simp only [hg]; rw [if_pos hc])
      · exact Exists.intro []
          (by simp only [hg]; rw [if_neg hc]; simp)

theorem walk_frame (h : HasherM) (root : String) :
    ∀ fuel : Nat,
      (∀ (p : String) (n : FSNode) (st st2 : WalkState),
        walkNode h root fuel p n st = .ok st2 ->
        st2.callerExcludes = st.callerExcludes ∧
          ∃ found, st2.excl = st.excl ++ found) ∧
      (∀ (p : String) (cs : List FSNode) (st st2 : WalkState),
        walkChildren h root fuel p cs st = .ok st2 ->
        st2.callerExcludes = st.callerExcludes ∧
          ∃ found, st2.excl = st.excl ++ found) := by
  intro fuel
  induction fuel with
  | zero =>
    constructor
    · intro p n st st2 hw
      exact absurd hw (by simp [walkNode])
    · intro p cs st st2 hw
      cases cs with
      | nil =>
        simp only [walkChildren] at hw
        cases hw
        exact ⟨rfl, [], by simp⟩
      | cons c rest =>
        exact absurd hw (by simp [walkChildren, walkNode])
  | succ fuel ih =>
    obtain ⟨ihn, ihc⟩ := ih
    have hnode : ∀ (p : String) (n : FSNode) (st st2 : WalkState),
        walkNode h root (fuel + 1) p n st = .ok st2 ->
        st2.callerExcludes = st.callerExcludes ∧
          ∃ found, st2.excl = st.excl ++ found := by
      intro p n st st2 hw
      cases n with
      | file fname regular =>
        simp only [walkNode] at hw
        split at hw
        · cases hw; exact ⟨rfl, [], by simp⟩
        · split at hw
          · cases hw; exact ⟨rfl, [], by simp⟩
          · split at hw
            · cases hw
            · split at hw
              · cases hw
              · cases hw; exact ⟨rfl, [], by simp⟩
      | dir dname ga children =>
        simp only [walkNode] at hw
        split at hw
        · cases hw; exact ⟨rfl, [], by simp⟩
        · cases ga with
          | none =>
            obtain ⟨hcal, found, hex⟩ := ihc p children st st2 hw
            exact ⟨hcal, found, hex⟩
          | some lines =>
            obtain ⟨hcal, found1, hex1⟩ := ihc p children _ st2 hw
            obtain ⟨found0, hex0⟩ :=
              processGitattributes_extend p lines st.excl
            refine ⟨hcal, found0 ++ found1, ?_⟩
            rw [hex1]
            show processGitattributes p lines st.excl ++ found1 = _
            rw [hex0, List.append_assoc]
    have hchildren : ∀ (cs : List FSNode) (p : String)
        (st st2 : WalkState),
        walkChildren h root (fuel + 1) p cs st = .ok st2 ->
        st2.callerExcludes = st.callerExcludes ∧
          ∃ found, st2.excl = st.excl ++ found := by
      intro cs
      induction cs with
      | nil =>
        intro p st st2 hw
        simp only [walkChildren] at hw
        cases hw
        exact ⟨rfl, [], by simp⟩
      | cons c rest ihrest =>
        intro p st st2 hw
        simp only [walkChildren] at hw
        cases hwn : walkNode h root (fuel + 1) (goJoin p c.name) c st with
        | error e => rw [hwn] at hw; cases hw
        | ok st1 =>
          rw [hwn] at hw
          obtain ⟨hc1, f1, he1⟩ := hnode _ _ _ _ hwn
          obtain ⟨hc2, f2, he2⟩ := ihrest p st1 st2 hw
          exact ⟨hc2.trans hc1, f1 ++ f2,
            by rw [he2, he1, List.append_assoc]⟩
    exact ⟨hnode, fun p cs st st2 hw => hchildren cs p st st2 hw⟩

/-- C7: NewFileHashes returns with the caller-supplied excludes set
unchanged; exclusions discovered from .gitattributes lines carrying the
export-subst attribute are recorded only in the private copy, which
extends the caller set without removing or altering its entries. -/
theorem newFileHashes_frame (h : HasherM) (root : String)
    (excludes : List String) (tree : FSNode) (fuel : Nat)
    (fh : FileHashes) (st : WalkState)
    (hok : newFileHashes h root excludes tree fuel = .ok (fh, st)) :
    st.callerExcludes = excludes ∧
      ∃ found, st.excl = excludes ++ found := by
  simp only [newFileHashes] at hok
  cases hwn : walkNode h root fuel root tree
      ⟨excludes, excludes, []⟩ with
  | error e => rw [hwn] at hok; cases hok
  | ok st1 =>
    rw [hwn] at hok
    obtain ⟨rfl, rfl⟩ := Prod.mk.inj (Except.ok.inj hok)
    obtain ⟨hcal, found, hex⟩ := (walk_frame h root fuel).1 _ _ _ _ hwn
    exact ⟨hcal, found, hex⟩

/-- Witness for newFileHashes_frame on the concrete example tree: the
caller excludes only root/skip.go; the walk discovers root/secret.go via
export-subst, and the final state keeps the caller set intact while the
private copy is its extension. -/
theorem newFileHashes_frame_witness :
    (⟨["root/skip.go"], ["root/skip.go", "root/secret.go"],
        [("a.go", "h-a.go"), ("sub/b.go", "h-sub/b.go")]⟩
      : WalkState).callerExcludes = ["root/skip.go"] ∧
    ∃ found,
      (⟨["root/skip.go"], ["root/skip.go", "root/secret.go"],
          [("a.go", "h-a.go"), ("sub/b.go", "h-sub/b.go")]⟩
        : WalkState).excl = ["root/skip.go"] ++ found :=
  newFileHashes_frame cexHasher "root" ["root/skip.go"] cexTree 10
    ⟨[("a.go", "h-a.go"), ("sub/b.go", "h-sub/b.go")]⟩
    ⟨["root/skip.go"], ["root/skip.go", "root/secret.go"],
      [("a.go", "h-a.go"), ("sub/b.go", "h-sub/b.go")]⟩
    (by decide)

end Retrodep
